import Mathlib

/-
  Verification of the LHDiff line-matching core.

  Shallow embedding of the Python sources in src/lh_diff (io.py, similarity.py,
  simhash_index.py, matcher.py).  Lines are modelled as lists of characters,
  Python floats as rationals, Python dicts as insertion-ordered association
  lists, and fallible code (list indexing that can raise IndexError) as Option.
  The TF-IDF context-similarity term and the SimHash fingerprint function are
  not expressible as pure arithmetic here; they enter the embedding as oracle
  parameters, while every comparison, gate, loop and update of the sources is
  embedded faithfully.
-/

namespace LHDiff

/-! ## Basic character and string utilities (Python semantics) -/

/-- Characters treated as whitespace by Python str.strip and the regex class
for whitespace (ASCII subset; the sources only rely on the ASCII cases). -/
def isPySpace (c : Char) : Bool :=
  c = ' ' || c = Char.ofNat 9 || c = Char.ofNat 10 || c = Char.ofNat 13 ||
  c = Char.ofNat 11 || c = Char.ofNat 12

/-- Python str.strip: remove leading and trailing whitespace. -/
def pyStrip (s : List Char) : List Char :=
  ((s.dropWhile isPySpace).reverse.dropWhile isPySpace).reverse

/-- Worker for whitespace collapsing; the flag records whether the previous
character belonged to a whitespace run that already emitted its space. -/
def collapseWsGo : Bool → List Char → List Char
  | _, [] => []
  | prevWs, c :: cs =>
    if isPySpace c then
      if prevWs then collapseWsGo true cs else ' ' :: collapseWsGo true cs
    else c :: collapseWsGo false cs

/-- Regex substitution replacing each maximal run of whitespace by one space. -/
def collapseWs (s : List Char) : List Char := collapseWsGo false s

/-- Does the pattern occur at the very start of the string? -/
def listStartsWith : List Char → List Char → Bool
  | [], _ => true
  | _ :: _, [] => false
  | p :: ps, c :: cs => p = c && listStartsWith ps cs

/-- Does the string end with the given pattern? -/
def listEndsWith (pat s : List Char) : Bool :=
  listStartsWith pat.reverse s.reverse

/-- Split a string at the first occurrence of a pattern, returning the part
strictly before the occurrence and the part strictly after it. -/
def splitAtSub (pat : List Char) : List Char → Option (List Char × List Char)
  | [] => if pat = [] then some ([], []) else none
  | c :: cs =>
    if listStartsWith pat (c :: cs) then some ([], (c :: cs).drop pat.length)
    else
      match splitAtSub pat cs with
      | some (p, r) => some (c :: p, r)
      | none => none

/-- Substring test, Python operator in for strings. -/
def containsSub (pat s : List Char) : Bool := (splitAtSub pat s).isSome

/-- Regex substitution removing everything from the first occurrence of the
pattern to the end of the line (used for the line-comment patterns). -/
def truncAtSub (pat : List Char) (s : List Char) : List Char :=
  match splitAtSub pat s with
  | some (p, _) => p
  | none => s

/-- Fuelled worker removing every non-overlapping lazily-matched pair
opn-...-cls, scanning left to right exactly like the regex engine: at each
position, if the opener matches here and a closer occurs later, drop through
the closer and continue after it, otherwise keep the character and advance.
The fuel is one more than the string length, which is always sufficient
because every step strictly shortens the remaining string. -/
def removeDelimPairsGo (opn cls : List Char) : Nat → List Char → List Char
  | 0, s => s
  | _ + 1, [] => []
  | fuel + 1, c :: cs =>
    if listStartsWith opn (c :: cs) then
      match splitAtSub cls ((c :: cs).drop opn.length) with
      | some (_, rest) => removeDelimPairsGo opn cls fuel rest
      | none => c :: removeDelimPairsGo opn cls fuel cs
    else c :: removeDelimPairsGo opn cls fuel cs

/-- Regex substitution deleting every lazily-matched opn-...-cls pair. -/
def removeDelimPairs (opn cls : List Char) (s : List Char) : List Char :=
  removeDelimPairsGo opn cls (s.length + 1) s

/-! ## Embedding of src/lh_diff/io.py -/

/-- The single-quote character. -/
def sq : Char := Char.ofNat 39

/-- The double-quote character. -/
def dq : Char := Char.ofNat 34

/-- Triple single quote delimiter. -/
def tsq : List Char := [sq, sq, sq]

/-- Triple double quote delimiter. -/
def tdq : List Char := [dq, dq, dq]

/-- Block comment opener slash-star. -/
def slashStar : List Char := ['/', '*']

/-- Block comment closer star-slash. -/
def starSlash : List Char := ['*', '/']

/-- Line comment marker, two slashes. -/
def dblSlash : List Char := ['/', '/']

/-- Line comment marker, hash. -/
def hashMark : List Char := ['#']

/-- Embedding of normalize_line from io.py: strip, collapse whitespace, and
when removeComments is set delete the two line-comment tails and the two
same-line block-comment pair forms; the punctuation-stripping substitution in
the source is commented out and therefore absent here as well; finally the
optional lowercasing and a trailing strip. -/
def normalizeLine (removeComments lowercase : Bool) (line : List Char) : List Char :=
  let l1 := collapseWs (pyStrip line)
  let l2 :=
    if removeComments then
      removeDelimPairs slashStar starSlash
        (removeDelimPairs tsq tsq
          (truncAtSub hashMark (truncAtSub dblSlash l1)))
    else l1
  let l3 := if lowercase then l2.map Char.toLower else l2
  pyStrip l3

/-- Does the line contain one of the three block-comment opening delimiters? -/
def hasOpenDelim (s : List Char) : Bool :=
  containsSub tsq s || containsSub tdq s || containsSub slashStar s

/-- Does the line contain one of the three block-comment closing delimiters? -/
def hasCloseDelim (s : List Char) : Bool :=
  containsSub tsq s || containsSub tdq s || containsSub starSlash s

/-- Regex substitution truncating a line at the first opening delimiter
(the opener and everything after it are removed). -/
def subOpenTail : List Char → List Char
  | [] => []
  | c :: cs =>
    if listStartsWith tsq (c :: cs) || listStartsWith tdq (c :: cs) ||
       listStartsWith slashStar (c :: cs) then []
    else c :: subOpenTail cs

/-- Drop a string through the first occurrence of a closing delimiter,
returning the remainder after the delimiter, or none when no closer occurs. -/
def dropThroughClose : List Char → Option (List Char)
  | [] => none
  | c :: cs =>
    if listStartsWith tsq (c :: cs) then some ((c :: cs).drop 3)
    else if listStartsWith tdq (c :: cs) then some ((c :: cs).drop 3)
    else if listStartsWith starSlash (c :: cs) then some ((c :: cs).drop 2)
    else dropThroughClose cs

/-- Fuelled worker for the closer-head substitution: the regex deletes every
lazily-matched prefix ending in a closing delimiter, so the scan repeatedly
drops through the next closer until none remains.  Fuel equal to the string
length is sufficient because every drop strictly shortens the string. -/
def subCloseHeadGo : Nat → List Char → List Char
  | 0, s => s
  | fuel + 1, s =>
    match dropThroughClose s with
    | some rest => subCloseHeadGo fuel rest
    | none => s

/-- Regex substitution removing everything up to and including the closing
delimiters of a line (applied to the line where a block comment closes). -/
def subCloseHead (s : List Char) : List Char := subCloseHeadGo s.length s

/-- Inner while loop of normalize_block_comments: scan forward for a line
containing a closing delimiter.  Returns the scanned lines before the closer
(each of which the source blanks), the closing line, and the remaining lines.
Returns none when the scan runs off the end of the list, which in the Python
source raises IndexError. -/
def scanToClose : List (List Char) → Option (List (List Char) × List Char × List (List Char))
  | [] => none
  | l :: ls =>
    if hasCloseDelim l then some ([], l, ls)
    else
      match scanToClose ls with
      | some (pre, cl, rest) => some (l :: pre, cl, rest)
      | none => none

/-- Fuelled worker for normalize_block_comments.  Each step consumes at least
one line, so fuel equal to the number of lines is sufficient; the fuel-zero
case on a nonempty list is unreachable under that choice. -/
def nbcGo : Nat → List (List Char) → Option (List (List Char))
  | _, [] => some []
  | 0, _ :: _ => none
  | fuel + 1, l :: ls =>
    if hasOpenDelim l then
      match scanToClose ls with
      | none => none
      | some (pre, cl, rest) =>
        match nbcGo fuel rest with
        | some tail => some (subOpenTail l :: (pre.map fun _ => ([] : List Char)) ++ subCloseHead cl :: tail)
        | none => none
    else
      match nbcGo fuel ls with
      | some tail => some (l :: tail)
      | none => none

/-- Embedding of normalize_block_comments from io.py.  The while loop walks the
line vector; a line holding an opening delimiter has its tail truncated, the
following lines are blanked until a line holding a closing delimiter is found,
whose head is then truncated; the loop resumes after the closing line.  When
the inner scan for a closer runs past the end of the vector, the source raises
IndexError, modelled by none. -/
def normalizeBlockComments (lines : List (List Char)) : Option (List (List Char)) :=
  nbcGo lines.length lines

/-- The full normalization pipeline of io.py on a list of raw lines (the body
of build_normalized_lines after the file read): per-line normalize_line with
the default flags, then the block-comment pass. -/
def normalizeText (t : List (List Char)) : Option (List (List Char)) :=
  normalizeBlockComments (t.map (normalizeLine true false))

/-! ## Embedding of src/lh_diff/similarity.py -/

/-- Word character in the sense of the regex class (ASCII view): letter,
digit or underscore. -/
def isWordChar (c : Char) : Bool := c.isAlpha || c.isDigit || c = '_'

/-- Worker for token substitution, accumulating the current (reversed) run of
word characters. -/
def subTokensGo (f : List Char → List Char) : List Char → List Char → List Char
  | run, [] => if run = [] then [] else f run.reverse
  | run, c :: cs =>
    if isWordChar c then subTokensGo f (c :: run) cs
    else (if run = [] then [] else f run.reverse) ++ c :: subTokensGo f [] cs

/-- Replace every maximal run of word characters by the image of the run
under f, keeping all other characters.  A word-boundary regex substitution
whose pattern matches whole word runs is exactly of this shape. -/
def subTokens (f : List Char → List Char) (s : List Char) : List Char :=
  subTokensGo f [] s

/-- The literal NUM. -/
def numTok : List Char := ['N', 'U', 'M']

/-- The literal VAR. -/
def varTok : List Char := ['V', 'A', 'R']

/-- Replacement function of the first substitution of normalize_code: a word
run consisting solely of digits (a digit run with word boundaries on both
sides) becomes NUM. -/
def numSubst (r : List Char) : List Char :=
  if r.all Char.isDigit then numTok else r

/-- Head test of the identifier pattern: underscore or letter. -/
def isIdentStart : List Char → Bool
  | [] => false
  | c :: _ => c.isAlpha || c = '_'

/-- Replacement function of the second substitution of normalize_code: a word
run starting with a letter or underscore becomes VAR. -/
def varSubst (r : List Char) : List Char :=
  if isIdentStart r then varTok else r

/-- Embedding of normalize_code from similarity.py: first the digit-literal
substitution to NUM, then the identifier substitution to VAR, applied to the
result of the first (so the NUM introduced by the first substitution is
itself an identifier token and becomes VAR). -/
def normalizeCode (s : List Char) : List Char :=
  subTokens varSubst (subTokens numSubst s)

/-- Fuelled Levenshtein distance with unit costs; the wrapper supplies fuel
covering the full recursion depth, so the fuel-zero case with two nonempty
strings is unreachable. -/
def levGo : Nat → List Char → List Char → Nat
  | _, [], ys => ys.length
  | _, x :: xs, [] => (x :: xs).length
  | 0, _ :: _, _ :: _ => 0
  | fuel + 1, x :: xs, y :: ys =>
    if x = y then levGo fuel xs ys
    else 1 + min (levGo fuel xs (y :: ys)) (min (levGo fuel (x :: xs) ys) (levGo fuel xs ys))

/-- Character-level Levenshtein distance (the reference distance used by the
sources via rapidfuzz). -/
def levenshtein (a b : List Char) : Nat := levGo (a.length + b.length) a b

/-- Embedding of content_similarity from similarity.py: one when both raw
strings are empty, zero when exactly one is, otherwise one minus the
normalized edit distance between the normalize_code images, divided by the
longer image length. -/
def contentSimilarity (a b : List Char) : ℚ :=
  if a = [] ∧ b = [] then 1
  else if a = [] ∨ b = [] then 0
  else
    let na := normalizeCode a
    let nb := normalizeCode b
    1 - (levenshtein na nb : ℚ) / (max na.length nb.length : ℚ)

/-- Modelled from the spec: the normalization that the claim sentence for C5
describes, replacing identifier tokens with VAR and integer literals with
NUM as two independent (simultaneous) replacements. -/
def specNormalizeCode (s : List Char) : List Char :=
  subTokens (fun r => if r.all Char.isDigit then numTok else if isIdentStart r then varTok else r) s

/-- Modelled from the spec: content similarity as the claim sentence for C5
states it, with the simultaneous VAR-and-NUM normalization. -/
def specContentSimilarity (a b : List Char) : ℚ :=
  if a = [] ∧ b = [] then 1
  else if a = [] ∨ b = [] then 0
  else
    let na := specNormalizeCode a
    let nb := specNormalizeCode b
    1 - (levenshtein na nb : ℚ) / (max na.length nb.length : ℚ)

/-- Replacement function describing the amended claim for C5: every word run
that is an integer literal or starts like an identifier ends up as VAR. -/
def amendedSubst (r : List Char) : List Char :=
  if r.all Char.isDigit then varTok else if isIdentStart r then varTok else r

/-- Normalization as the amended claim for C5 describes it: a single pass
turning both identifier tokens and integer literals into VAR. -/
def amendedNormalizeCode (s : List Char) : List Char := subTokens amendedSubst s

/-- Content similarity as the amended claim for C5 describes it. -/
def amendedContentSimilarity (a b : List Char) : ℚ :=
  if a = [] ∧ b = [] then 1
  else if a = [] ∨ b = [] then 0
  else
    let na := amendedNormalizeCode a
    let nb := amendedNormalizeCode b
    1 - (levenshtein na nb : ℚ) / (max na.length nb.length : ℚ)

/-- Embedding of combined_similarity with empty context strings: the TF-IDF
term is zero because context_similarity returns zero as soon as either
context strips to the empty string, leaving the weighted content term.  All
matcher call sites outside the main similarity matrix pass empty contexts. -/
def combinedSimilarityNoCtx (a b : List Char) : ℚ :=
  (0.6 : ℚ) * contentSimilarity a b + (0.4 : ℚ) * 0

/-! ## Embedding of src/lh_diff/simhash_index.py -/

/-- Fuelled binary population count. -/
def popCountGo : Nat → Nat → Nat
  | 0, _ => 0
  | _ + 1, 0 => 0
  | fuel + 1, n + 1 => (n + 1) % 2 + popCountGo fuel ((n + 1) / 2)

/-- Number of one bits of a natural number. -/
def popCount (n : Nat) : Nat := popCountGo n n

/-- Embedding of hamming_distance from simhash_index.py: the number of one
bits of the xor of the two fingerprints. -/
def hammingDistance (h1 h2 : Nat) : Nat := popCount (h1 ^^^ h2)

/-- Stable ascending insertion by distance (second component): an element is
placed after every element whose distance is less than or equal to its own,
which is exactly the tie behaviour of a stable sort keyed on the distance. -/
def insByDist (x : Nat × Nat) : List (Nat × Nat) → List (Nat × Nat)
  | [] => [x]
  | y :: ys => if x.2 < y.2 then x :: y :: ys else y :: insByDist x ys

/-- Stable sort of (index, distance) pairs by ascending distance. -/
def sortByDist (l : List (Nat × Nat)) : List (Nat × Nat) :=
  l.foldl (fun acc x => insByDist x acc) []

/-- Embedding of SimhashIndex.get_top_k_candidates: pair every stored
fingerprint with its index, key on Hamming distance to the target
fingerprint, and take the k smallest.  heapq.nsmallest with a key is
documented as equivalent to a stable sort by that key followed by a prefix
of length k.  The fingerprints are inputs here, standing for the stored
Simhash values of the indexed lines. -/
def getTopKCandidates (hashes : List Nat) (targetHash : Nat) (k : Nat) : List (Nat × Nat) :=
  let distances := hashes.enum.map fun p => (p.1, hammingDistance targetHash p.2)
  (sortByDist distances).take k

/-- Embedding of generate_candidate_sets: hash every new line once, then for
every old line take the indices of its top-k candidates, as an association
list keyed by the old index.  The hash function is an oracle parameter
standing for the Simhash fingerprint of a line. -/
def generateCandidateSets (hashOf : List Char → Nat) (oldLines newLines : List (List Char))
    (k : Nat) : List (Nat × List Nat) :=
  let hashes := newLines.map hashOf
  oldLines.enum.map fun p =>
    (p.1, (getTopKCandidates hashes (hashOf p.2) k).map (·.1))

/-- Dictionary lookup with default empty list, Python candidate_sets.get(i, []). -/
def candLookup (cs : List (Nat × List Nat)) (i : Nat) : List Nat :=
  match cs.find? (fun g => g.1 = i) with
  | some g => g.2
  | none => []

/-! ## Embedding of src/lh_diff/matcher.py

Matches dictionaries are insertion-ordered association lists of entries
(old index, new index, score); the set of consumed new indices is a list
queried by membership only.  The matcher state after
detect_structural_changes is a record of the structural tables the passes
read; the TF-IDF-backed similarity matrix entries and the semantic-pattern
regex hits are oracle parameters inside it. -/

/-- Membership of an old index among the keys of a match dictionary. -/
def amem (m : List (Nat × Nat × ℚ)) (k : Nat) : Bool :=
  m.any (fun e => decide (e.1 = k))

/-- Python dict assignment: update the value in place when the key exists,
otherwise append the new binding at the end. -/
def dassign (m : List (Nat × Nat × ℚ)) (k : Nat) (v : Nat × ℚ) : List (Nat × Nat × ℚ) :=
  if amem m k then m.map (fun e => if e.1 = k then (k, v.1, v.2) else e) else m ++ [(k, v.1, v.2)]

/-- Lookup in a string-keyed association list (method boundary tables). -/
def lookupB (l : List (String × Nat × Nat)) (k : String) : Option (Nat × Nat) :=
  (l.find? (fun b => decide (b.1 = k))).map (fun b => b.2)

/-- Absolute difference of two indices. -/
def absDiffN (a b : Nat) : Nat := max a b - min a b

/-- Score of the best candidate so far; zero when none, mirroring the
best_score = 0.0 initialization of the selection loops. -/
def bestScoreOf : Option (Nat × ℚ) → ℚ
  | some p => p.2
  | none => 0

/-- Worker splitting a string into its maximal word-character runs. -/
def wordRunsGo : List Char → List Char → List (List Char)
  | run, [] => if run = [] then [] else [run.reverse]
  | run, c :: cs =>
    if isWordChar c then wordRunsGo (c :: run) cs
    else (if run = [] then [] else [run.reverse]) ++ wordRunsGo [] cs

/-- The maximal word-character runs of a string, in order. -/
def wordRuns (s : List Char) : List (List Char) := wordRunsGo [] s

/-- The control-flow keywords of the matcher regex. -/
def controlKeywords : List (List Char) :=
  ["if", "else", "for", "while", "return", "switch", "case"].map String.data

/-- Embedding of _is_control_flow_line: the word-boundary keyword search
succeeds exactly when some maximal word run equals one of the keywords. -/
def isControlFlowLine (s : List Char) : Bool :=
  (wordRuns s).any (fun r => controlKeywords.any (fun k => decide (r = k)))

/-- The literal substring checked by the pass-3 fallback condition. -/
def returnTok : List Char := "return".data

/-- Semantic-equivalence pattern: the two catalog regex searches are oracle
predicates on lines, the confidence is the catalog confidence. -/
structure SemPattern where
  oldHit : List Char → Bool
  newHit : List Char → Bool
  conf : ℚ

/-- State of a DiffMatcher after detect_structural_changes, as read by the
matching passes: the field-usage replacement table as (old index,
replacement line, confidence), the logic-rewrite table as (method name,
confidence), the semantic pattern catalog, the two method boundary tables,
the validated rename table and the recorded removed-field line.  The
detection code computing this state is regex and TF-IDF heavy; the passes
consume it only through the shapes recorded here. -/
structure MatcherState where
  fieldRepl : List (Nat × Nat × ℚ)
  logicRewrites : List (String × ℚ)
  semPatterns : List SemPattern
  mbOld : List (String × Nat × Nat)
  mbNew : List (String × Nat × Nat)
  renames : List (List Char × List Char)
  fieldRemoved : Option Nat

/-- The sparse similarity matrix of best_match_for_each_line: entries are
computed (from the TF-IDF-backed combined similarity, an oracle here) only
for candidate pairs inside the two sides, all other cells stay at the 0.0
they were initialized with. -/
def matrixOf (nOld nNew : Nat) (cand : Nat → List Nat) (simCtx : Nat → Nat → ℚ)
    (i j : Nat) : ℚ :=
  if i < nOld ∧ j < nNew ∧ j ∈ cand i then simCtx i j else 0

/-- Pass 1 of best_match_for_each_line: for each old index in order, claim
the first candidate scoring above 0.95 that is not yet consumed. -/
def pass1 (nOld : Nat) (cand : Nat → List Nat) (M : Nat → Nat → ℚ) :
    List (Nat × Nat × ℚ) × List Nat :=
  (List.range nOld).foldl
    (fun (st : List (Nat × Nat × ℚ) × List Nat) i =>
      match (cand i).find? (fun j => decide ((0.95 : ℚ) < M i j) && !st.2.contains j) with
      | some j => (st.1 ++ [(i, j, M i j)], st.2 ++ [j])
      | none => st)
    ([], [])

/-- Merge loop of passes 2 and 5: adopt a proposed entry only when its old
index is unassigned and its new index unconsumed. -/
def mergeGuarded (entries : List (Nat × Nat × ℚ)) (st : List (Nat × Nat × ℚ) × List Nat) :
    List (Nat × Nat × ℚ) × List Nat :=
  entries.foldl
    (fun (st : List (Nat × Nat × ℚ) × List Nat) e =>
      if !amem st.1 e.1 && !st.2.contains e.2.1 then
        (st.1 ++ [e], st.2 ++ [e.2.1])
      else st)
    st

/-- Part 1 of _find_enhanced_structural_matches: proposals from the
field-usage replacement table, scored as the larger of the raw similarity
(with empty contexts) and 0.4 plus half the replacement confidence, gated
above 0.4 and capped at 1. -/
def enhancedPart1 (st : MatcherState) (oldL newL : List (List Char)) : List (Nat × Nat × ℚ) :=
  st.fieldRepl.foldl
    (fun sm fr =>
      if fr.2.1 < newL.length then
        let score := combinedSimilarityNoCtx (oldL.getD fr.1 []) (newL.getD fr.2.1 [])
        let minScore := (0.4 : ℚ) + fr.2.2 * 0.5
        let boosted := max score minScore
        if (0.4 : ℚ) < boosted then dassign sm fr.1 (fr.2.1, min boosted 1) else sm
      else sm)
    []

/-- Candidate selection of part 2 of _find_enhanced_structural_matches over
one search window: boost each candidate score by 0.3 times the rewrite
confidence (capped at 1) and keep the strict argmax above 0.4. -/
def enhancedPart2Inner (cand : Nat → List Nat) (M : Nat → Nat → ℚ) (conf : ℚ)
    (oi : Nat) (searchIdxs : List Nat) : Option (Nat × ℚ) :=
  searchIdxs.foldl
    (fun (acc : Option (Nat × ℚ)) ni =>
      if ni ∈ cand oi then
        let boosted := min 1 (M oi ni + conf * (0.3 : ℚ))
        if bestScoreOf acc < boosted ∧ (0.4 : ℚ) < boosted then some (ni, boosted) else acc
      else acc)
    none

/-- Part 2 of _find_enhanced_structural_matches: for every rewritten method
present in both boundary tables, interpolate each old index of the old
method range to a proportional expected position in the new method and
search ten lines around it within the new method. -/
def enhancedPart2Window (om nm : Nat × Nat) (oi : Nat) : List Nat :=
  let relPos : ℚ := ((oi - om.1 : Nat) : ℚ) / ((max 1 (om.2 - om.1) : Nat) : ℚ)
  let expected := nm.1 + (relPos * ((nm.2 - nm.1 : Nat) : ℚ)).floor.toNat
  List.range' (max nm.1 (expected - 10)) (min nm.2 (expected + 11) - max nm.1 (expected - 10))

/-- Part 2 of _find_enhanced_structural_matches: for every rewritten method
present in both boundary tables, search the proportional window of the new
method around each old index of the old method range. -/
def enhancedPart2 (st : MatcherState) (cand : Nat → List Nat) (M : Nat → Nat → ℚ)
    (sm0 : List (Nat × Nat × ℚ)) : List (Nat × Nat × ℚ) :=
  st.logicRewrites.foldl
    (fun sm lr =>
      match lookupB st.mbOld lr.1, lookupB st.mbNew lr.1 with
      | some om, some nm =>
        (List.range' om.1 (om.2 + 1 - om.1)).foldl
          (fun sm oi =>
            if amem sm oi then sm
            else
              match enhancedPart2Inner cand M lr.2 oi (enhancedPart2Window om nm oi) with
              | some p => dassign sm oi p
              | none => sm)
          sm
      | _, _ => sm)
    sm0

/-- Part 3 of _find_enhanced_structural_matches: for each old line matching a
catalog old-shape, pair it with the first new line matching the new-shape
whose index is not already a proposed value, scored as the candidate base
(0.3 outside the candidate set) plus 0.4 times the catalog confidence,
gated above 0.5 and capped at 1. -/
def enhancedPart3 (st : MatcherState) (oldL newL : List (List Char)) (cand : Nat → List Nat)
    (M : Nat → Nat → ℚ) (sm0 : List (Nat × Nat × ℚ)) : List (Nat × Nat × ℚ) :=
  (List.range oldL.length).foldl
    (fun smOuter oi =>
      if amem smOuter oi then smOuter
      else
        st.semPatterns.foldl
          (fun sm p =>
            if p.oldHit (oldL.getD oi []) then
              match (List.range newL.length).find? (fun ni =>
                  !(sm.any (fun e => decide (e.2.1 = ni))) && p.newHit (newL.getD ni []) &&
                  decide ((0.5 : ℚ) <
                    min 1 ((if ni ∈ cand oi then M oi ni else (0.3 : ℚ)) + p.conf * 0.4))) with
              | some ni =>
                dassign sm oi (ni, min 1 ((if ni ∈ cand oi then M oi ni else (0.3 : ℚ)) + p.conf * 0.4))
              | none => sm
            else sm)
          smOuter)
    sm0

/-- Embedding of _find_enhanced_structural_matches: the three proposal
sources in program order over one shared dictionary. -/
def findEnhancedStructuralMatches (st : MatcherState) (oldL newL : List (List Char))
    (cand : Nat → List Nat) (M : Nat → Nat → ℚ) : List (Nat × Nat × ℚ) :=
  enhancedPart3 st oldL newL cand M (enhancedPart2 st cand M (enhancedPart1 st oldL newL))

/-- Embedding of _find_remaining_structural_matches (pass 5 proposals):
re-run the field-replacement proposals for old indices still unmatched whose
replacement line is still unconsumed and in range. -/
def findRemainingStructuralMatches (st : MatcherState) (oldL newL : List (List Char))
    (existing : List (Nat × Nat × ℚ)) (used : List Nat) : List (Nat × Nat × ℚ) :=
  st.fieldRepl.foldl
    (fun rm fr =>
      if amem existing fr.1 then rm
      else if !used.contains fr.2.1 then
        if fr.2.1 < newL.length then
          let score := combinedSimilarityNoCtx (oldL.getD fr.1 []) (newL.getD fr.2.1 [])
          let minScore := (0.4 : ℚ) + fr.2.2 * 0.5
          let boosted := max score minScore
          if (0.4 : ℚ) < boosted then dassign rm fr.1 (fr.2.1, min boosted 1) else rm
        else rm
      else rm)
    []

/-- Pass 3 of best_match_for_each_line: for each unassigned old line holding a
control keyword or the substring return, take the strict argmax of the
position-adjusted score sim times (1 - dist / 15) over unconsumed candidates
that also look control-flow and have raw similarity above 0.6. -/
def pass3Select (newL : List (List Char)) (cand : Nat → List Nat) (M : Nat → Nat → ℚ)
    (used : List Nat) (i : Nat) : Option (Nat × ℚ) :=
  (cand i).foldl
    (fun (acc : Option (Nat × ℚ)) j =>
      if used.contains j then acc
      else if (isControlFlowLine (newL.getD j []) || containsSub returnTok (newL.getD j [])) &&
              decide ((0.6 : ℚ) < M i j) then
        if bestScoreOf acc < M i j * (1 - (absDiffN i j : ℚ) / 15) then
          some (j, M i j * (1 - (absDiffN i j : ℚ) / 15))
        else acc
      else acc)
    none

/-- Pass 3 of best_match_for_each_line, using the selection above on each
unassigned control-flow old line. -/
def pass3 (oldL newL : List (List Char)) (cand : Nat → List Nat) (M : Nat → Nat → ℚ)
    (st0 : List (Nat × Nat × ℚ) × List Nat) : List (Nat × Nat × ℚ) × List Nat :=
  (List.range oldL.length).foldl
    (fun st i =>
      if amem st.1 i then st
      else if isControlFlowLine (oldL.getD i []) || containsSub returnTok (oldL.getD i []) then
        match pass3Select newL cand M st.2 i with
        | some p => (st.1 ++ [(i, p.1, p.2)], st.2 ++ [p.1])
        | none => st
      else st)
    st0

/-- Pass 4 of best_match_for_each_line: local neighborhood search inside the
window of ten lines around the old index, on candidates only, keeping the
strict argmax of sim times (1 - dist / 25) when above 0.5. -/
def pass4Select (nNew : Nat) (cand : Nat → List Nat) (M : Nat → Nat → ℚ)
    (used : List Nat) (i : Nat) : Option (Nat × ℚ) :=
  (List.range' (i - 10) (min nNew (i + 11) - (i - 10))).foldl
    (fun (acc : Option (Nat × ℚ)) j =>
      if used.contains j then acc
      else if j ∈ cand i then
        if bestScoreOf acc < M i j * (1 - (absDiffN i j : ℚ) / 25) ∧
           (0.5 : ℚ) < M i j * (1 - (absDiffN i j : ℚ) / 25) then
          some (j, M i j * (1 - (absDiffN i j : ℚ) / 25))
        else acc
      else acc)
    none

/-- Pass 4 of best_match_for_each_line, using the selection above on each
unassigned old index. -/
def pass4 (nOld nNew : Nat) (cand : Nat → List Nat) (M : Nat → Nat → ℚ)
    (st0 : List (Nat × Nat × ℚ) × List Nat) : List (Nat × Nat × ℚ) × List Nat :=
  (List.range nOld).foldl
    (fun st i =>
      if amem st.1 i then st
      else
        match pass4Select nNew cand M st.2 i with
        | some p => (st.1 ++ [(i, p.1, p.2)], st.2 ++ [p.1])
        | none => st)
    st0

/-- Pass 6 of best_match_for_each_line: global search over the whole
candidate list, strict argmax above 0.3 among unconsumed candidates. -/
def pass6Select (cand : Nat → List Nat) (M : Nat → Nat → ℚ)
    (used : List Nat) (i : Nat) : Option (Nat × ℚ) :=
  (cand i).foldl
    (fun (acc : Option (Nat × ℚ)) j =>
      if used.contains j then acc
      else if bestScoreOf acc < M i j ∧ (0.3 : ℚ) < M i j then some (j, M i j) else acc)
    none

/-- Pass 6 of best_match_for_each_line, using the selection above on each
unassigned old index. -/
def pass6 (nOld : Nat) (cand : Nat → List Nat) (M : Nat → Nat → ℚ)
    (st0 : List (Nat × Nat × ℚ) × List Nat) : List (Nat × Nat × ℚ) × List Nat :=
  (List.range nOld).foldl
    (fun st i =>
      if amem st.1 i then st
      else
        match pass6Select cand M st.2 i with
        | some p => (st.1 ++ [(i, p.1, p.2)], st.2 ++ [p.1])
        | none => st)
    st0

/-- Pass 7 of best_match_for_each_line: forced matching; the strict argmax
over the whole candidate list ignoring consumption, recorded when above 0.2;
the consumed set is not updated by this pass. -/
def pass7Select (cand : Nat → List Nat) (M : Nat → Nat → ℚ) (i : Nat) :
    Option (Nat × ℚ) :=
  (cand i).foldl
    (fun (acc : Option (Nat × ℚ)) j =>
      if bestScoreOf acc < M i j then some (j, M i j) else acc)
    none

/-- Pass 7 of best_match_for_each_line, using the selection above on each
unassigned old index; the consumed set is not updated. -/
def pass7 (nOld : Nat) (cand : Nat → List Nat) (M : Nat → Nat → ℚ)
    (st0 : List (Nat × Nat × ℚ) × List Nat) : List (Nat × Nat × ℚ) × List Nat :=
  (List.range nOld).foldl
    (fun st i =>
      if amem st.1 i then st
      else
        match pass7Select cand M i with
        | some p => if (0.2 : ℚ) < p.2 then (st.1 ++ [(i, p.1, p.2)], st.2) else st
        | none => st)
    st0

/-- Embedding of DiffMatcher.best_match_for_each_line: build the sparse
similarity matrix over candidate pairs, then run the seven passes in order.
The structural state stands for the result of the detect_structural_changes
call at the top of the source function.  The threshold parameter is bound
but, as in the source, never consulted. -/
def bestMatchForEachLine (st : MatcherState) (oldL newL : List (List Char))
    (cand : Nat → List Nat) (simCtx : Nat → Nat → ℚ) (threshold : ℚ) :
    List (Nat × Nat × ℚ) :=
  let nOld := oldL.length
  let nNew := newL.length
  let M := matrixOf nOld nNew cand simCtx
  let s1 := pass1 nOld cand M
  let s2 := mergeGuarded (findEnhancedStructuralMatches st oldL newL cand M) s1
  let s3 := pass3 oldL newL cand M s2
  let s4 := pass4 nOld nNew cand M s3
  let s5 := mergeGuarded (findRemainingStructuralMatches st oldL newL s4.1 s4.2) s4
  let s6 := pass6 nOld cand M s5
  let s7 := pass7 nOld cand M s6
  s7.1

/-- Opening brace character. -/
def braceOpen : Char := Char.ofNat 123

/-- Closing brace character. -/
def braceClose : Char := Char.ofNat 125

/-- The lone-brace lines rejected by the reasonableness filter. -/
def loneBraces : List (List Char) := [[braceOpen], [braceClose], [braceClose, ';']]

/-- Literal prefix public followed by a space. -/
def publicSp : List Char := "public ".data

/-- Literal prefix import followed by a space. -/
def importSp : List Char := "import ".data

/-- Literal prefix private followed by a space. -/
def privateSp : List Char := "private ".data

/-- Literal substring class. -/
def classTok : List Char := "class".data

/-- Embedding of _is_semantically_reasonable_match; the old index parameter
of the source is ignored by its body and omitted here. -/
def isSemanticallyReasonableMatch (newLines : List (List Char)) (ni : Nat) : Bool :=
  let nl := pyStrip (newLines.getD ni [])
  let nonsense :=
    (listStartsWith publicSp nl && nl.contains ';') ||
    listStartsWith importSp nl ||
    loneBraces.any (fun b => decide (nl = b)) ||
    decide (nl.length < 10) ||
    (nl.contains braceClose && !nl.contains braceOpen && !containsSub classTok nl)
  !nonsense

/-- The offsets -15..15 without 0, in the order the source loop visits them. -/
def altOffsets : List Int :=
  ((List.range 31).map (fun k => (k : Int) - 15)).filter (fun o => decide (o ≠ 0))

/-- Embedding of _find_valid_alternative: scan the window around the contested
new index for the first in-range line that no already-resolved entry claims
and that passes the reasonableness filter. -/
def findValidAlternative (origNi : Nat) (newLines : List (List Char))
    (resolved : List (Nat × Nat × ℚ)) : Option Nat :=
  altOffsets.foldl
    (fun acc off =>
      match acc with
      | some _ => acc
      | none =>
        let t : Int := (origNi : Int) + off
        if 0 ≤ t ∧ t < (newLines.length : Int) then
          let ti := t.toNat
          if resolved.any (fun e => decide (e.2.1 = ti)) then none
          else if isSemanticallyReasonableMatch newLines ti then some ti else none
        else none)
    none

/-- Append a claimant to the group of its new index, creating the group at
the end on first contact (Python setdefault plus append). -/
def upsertAppend (acc : List (Nat × List (Nat × ℚ))) (k : Nat) (v : Nat × ℚ) :
    List (Nat × List (Nat × ℚ)) :=
  if acc.any (fun g => decide (g.1 = k)) then
    acc.map (fun g => if g.1 = k then (k, g.2 ++ [v]) else g)
  else acc ++ [(k, [v])]

/-- The inverse index of resolve_conflicts: for each new index in order of
first appearance, the list of (old index, score) claimants in match order. -/
def buildNewToOld (m : List (Nat × Nat × ℚ)) : List (Nat × List (Nat × ℚ)) :=
  m.foldl (fun acc e => upsertAppend acc e.2.1 (e.1, e.2.2)) []

/-- Stable descending insertion by score: a new element goes after every
element with score at least its own, matching Python sorted with reverse. -/
def insDesc (x : Nat × ℚ) : List (Nat × ℚ) → List (Nat × ℚ)
  | [] => [x]
  | y :: ys => if y.2 < x.2 then x :: y :: ys else y :: insDesc x ys

/-- Stable sort by descending score. -/
def sortDescByScore (l : List (Nat × ℚ)) : List (Nat × ℚ) :=
  l.foldl (fun acc x => insDesc x acc) []

/-- Embedding of DiffMatcher.resolve_conflicts: group claimants by new index,
give each contested index to its highest-score claimant, then try to salvage
each loser in score order when it is structurally motivated (a key of the
field-replacement table) or confident above 0.8, lies more than five lines
from the winner, and the contested line is reasonable; a salvage claims the
first free reasonable line in the window when it differs from the contested
index. -/
def resolveConflicts (fieldKeys : List Nat) (matchesA : List (Nat × Nat × ℚ))
    (newLines : List (List Char)) : List (Nat × Nat × ℚ) :=
  (buildNewToOld matchesA).foldl
    (fun resolved g =>
      match g.2 with
      | [single] => resolved ++ [(single.1, g.1, single.2)]
      | items =>
        match sortDescByScore items with
        | [] => resolved
        | best :: losers =>
          losers.foldl
            (fun resolved l =>
              let isStructural := fieldKeys.contains l.1
              let isHighConf := decide ((0.8 : ℚ) < l.2)
              let hasDist := decide (5 < absDiffN l.1 best.1)
              let isReasonable := isSemanticallyReasonableMatch newLines g.1
              if (isStructural || isHighConf) && hasDist && isReasonable then
                match findValidAlternative g.1 newLines resolved with
                | some nb => if nb ≠ g.1 then resolved ++ [(l.1, nb, l.2)] else resolved
                | none => resolved
              else resolved)
            (resolved ++ [(best.1, g.1, best.2)]))
    []

/-- Embedding of _get_method_context: the first boundary range containing the
line index names the scope, global otherwise or when no table exists. -/
def getMethodContext (boundaries : List (String × Nat × Nat)) (li : Nat) : String :=
  if boundaries = [] then "global"
  else
    match boundaries.find? (fun b => decide (b.2.1 ≤ li ∧ li ≤ b.2.2)) with
    | some b => b.1
    | none => "global"

/-- Embedding of _apply_rename_adjustment: substitute each validated rename
as a whole-word replacement, in table order. -/
def applyRenameAdjustment (renames : List (List Char × List Char)) (line : List Char) : List Char :=
  renames.foldl (fun l rn => subTokens (fun r => if r = rn.1 then rn.2 else r) l) line

/-- Embedding of DiffMatcher.detect_reorders.  The batching of the source
visits old indices 0, 1, ... in exactly ascending order, embedded as one
sweep.  Unmatched old lines search a scope-bounded or position-bounded
window of unclaimed new lines, score raw and rename-adjusted similarity with
empty contexts, and accept the strict argmax when it reaches the threshold. -/
def detectReorders (st : MatcherState) (oldL newL : List (List Char))
    (matchesA : List (Nat × Nat × ℚ)) (threshold : ℚ) : List (Nat × Nat × ℚ) :=
  let res := (List.range oldL.length).foldl
    (fun (acc : List (Nat × Nat × ℚ) × List Nat) oi =>
      if amem matchesA oi then acc
      else if st.fieldRemoved = some oi then acc
      else
        let oldMethod := getMethodContext st.mbOld oi
        let oldLine := oldL.getD oi []
        let searchRange :=
          match lookupB st.mbNew oldMethod with
          | some se => List.range' (se.1 - 25) (min newL.length (se.2 + 26) - (se.1 - 25))
          | none => List.range' (oi - 60) (min newL.length (oi + 61) - (oi - 60))
        let best := searchRange.foldl
          (fun (b : Option (Nat × ℚ)) ni =>
            if acc.2.contains ni then b
            else
              let newMethod := getMethodContext st.mbNew ni
              if oldMethod ≠ "global" ∧ newMethod ≠ "global" ∧ oldMethod ≠ newMethod then b
              else
                let newLine := newL.getD ni []
                let score := combinedSimilarityNoCtx oldLine newLine
                let adjScore := combinedSimilarityNoCtx
                  (applyRenameAdjustment st.renames oldLine)
                  (applyRenameAdjustment st.renames newLine)
                let sc := max score adjScore
                if bestScoreOf b < sc then some (ni, sc) else b)
          none
        match best with
        | some p => if threshold ≤ p.2 then (acc.1 ++ [(oi, p.1, p.2)], acc.2 ++ [p.1]) else acc
        | none => acc)
    ([], matchesA.map (fun e => e.2.1))
  matchesA ++ res.1

/-- Embedding of _is_likely_split_candidate on the stripped old line. -/
def isLikelySplitCandidate (oldLine : List Char) (newL : List (List Char)) (startIdx : Nat) : Bool :=
  let current := pyStrip (newL.getD startIdx [])
  if oldLine.length < 20 || current.length < 10 then false
  else if loneBraces.any (fun b => decide (oldLine = b)) ||
          loneBraces.any (fun b => decide (current = b)) then false
  else if listStartsWith importSp oldLine || listStartsWith publicSp oldLine ||
          listStartsWith privateSp oldLine then false
  else if (0.9 : ℚ) < combinedSimilarityNoCtx oldLine current then false
  else
    decide ((current.length : ℚ) < (oldLine.length : ℚ) * 0.6) ||
    (listEndsWith [';'] oldLine && !listEndsWith [';'] current) ||
    (oldLine.contains ';' && decide (1 < oldLine.count ';') && !current.contains ';') ||
    (oldLine.contains '=' && oldLine.contains '(' && decide (40 < oldLine.length))

/-- Embedding of _extend_split_group_safely: greedily append following lines
(skipping empties and lone braces) while the combined similarity improves by
more than the larger of the threshold increase and 0.05; stop at the first
line that fails to improve. -/
def extendSplitGroup (oldLine : List Char) (newL : List (List Char)) (startIdx : Nat)
    (thresholdIncrease : ℚ) : List Nat :=
  let maxSplit := min 5 (oldLine.length / 20)
  let startText := pyStrip (newL.getD startIdx [])
  let idxs := List.range' (startIdx + 1) (min (startIdx + maxSplit + 1) newL.length - (startIdx + 1))
  let final := idxs.foldl
    (fun (stt : List Nat × List Char × ℚ × Bool) ni =>
      if stt.2.2.2 then stt
      else
        let nextLine := pyStrip (newL.getD ni [])
        if nextLine = [] || loneBraces.any (fun b => decide (nextLine = b)) then stt
        else
          let testCombined := stt.2.1 ++ ' ' :: nextLine
          let testScore := combinedSimilarityNoCtx oldLine testCombined
          if stt.2.2.1 + max thresholdIncrease (0.05 : ℚ) < testScore then
            (stt.1 ++ [ni], testCombined, testScore, false)
          else (stt.1, stt.2.1, stt.2.2.1, true))
    ([startIdx], startText, combinedSimilarityNoCtx oldLine startText, false)
  final.1

/-- Join strings with single spaces. -/
def joinSpace : List (List Char) → List Char
  | [] => []
  | [x] => x
  | x :: xs => x ++ ' ' :: joinSpace xs

/-- Set construction keeping first occurrences. -/
def dedupKeepFirst (l : List (List Char)) : List (List Char) :=
  l.foldl (fun acc x => if acc.any (fun y => decide (y = x)) then acc else acc ++ [x]) []

/-- Embedding of _validate_split: a real split must beat the best single-line
score by at least 0.1 and the combined token set must cover sixty percent of
the old token set. -/
def validateSplit (oldLine : List Char) (group : List Nat) (newL : List (List Char)) : Bool :=
  if group.length < 2 then false
  else
    let combined := joinSpace (group.map (fun i => pyStrip (newL.getD i [])))
    let bestIndividual :=
      (group.map (fun i => combinedSimilarityNoCtx oldLine (pyStrip (newL.getD i [])))).foldl max 0
    let combinedScore := combinedSimilarityNoCtx oldLine combined
    if combinedScore < bestIndividual + (0.1 : ℚ) then false
    else
      let oldToks := dedupKeepFirst (wordRuns (oldLine.map Char.toLower))
      let combToks := dedupKeepFirst (wordRuns (combined.map Char.toLower))
      let overlap := oldToks.countP (fun t => combToks.any (fun u => decide (u = t)))
      !decide ((overlap : ℚ) < (oldToks.length : ℚ) * 0.6)

/-- Embedding of DiffMatcher.detect_line_splits: every resolved match keeps
its singleton group unless the split heuristics propose and validate a
longer consecutive group. -/
def detectLineSplits (oldL newL : List (List Char)) (matchesA : List (Nat × Nat × ℚ))
    (thresholdIncrease : ℚ) : List (Nat × List Nat) :=
  matchesA.foldl
    (fun upd e =>
      let oldLine := pyStrip (oldL.getD e.1 [])
      let group :=
        if isLikelySplitCandidate oldLine newL e.2.1 then
          let ext := extendSplitGroup oldLine newL e.2.1 thresholdIncrease
          if 1 < ext.length ∧ validateSplit oldLine ext newL = true then ext else [e.2.1]
        else [e.2.1]
      upd ++ [(e.1, group)])
    []

/-- The full pipeline of the claims on given candidate sets: matching with
default threshold 0.45, conflict resolution, reorder detection at 0.4 and
split detection at 0.01. -/
def lhdiffPipelineFromCand (st : MatcherState) (oldL newL : List (List Char))
    (cand : Nat → List Nat) (simCtx : Nat → Nat → ℚ) : List (Nat × List Nat) :=
  let matchesA := bestMatchForEachLine st oldL newL cand simCtx 0.45
  let resolved := resolveConflicts (st.fieldRepl.map (fun e => e.1)) matchesA newL
  detectLineSplits oldL newL (detectReorders st oldL newL resolved 0.4) 0.01

/-- The full pipeline including SimHash candidate generation with default
k = 15, the hash function being the Simhash oracle. -/
def lhdiffPipeline (st : MatcherState) (hashOf : List Char → Nat)
    (simCtx : Nat → Nat → ℚ) (oldL newL : List (List Char)) : List (Nat × List Nat) :=
  lhdiffPipelineFromCand st oldL newL
    (candLookup (generateCandidateSets hashOf oldL newL 15)) simCtx

/-- Lookup of an old index in a final mapping. -/
def mappingLookup (m : List (Nat × List Nat)) (k : Nat) : Option (List Nat) :=
  (m.find? (fun e => decide (e.1 = k))).map (fun e => e.2)

/-- The diagonal match dictionary on the first n old indices, the value the
matching passes produce when every line pairs with its own index. -/
def identityMatches (n : Nat) (M : Nat → Nat → ℚ) : List (Nat × Nat × ℚ) :=
  (List.range n).map (fun i => (i, i, M i i))

/-! ## Concrete instances used by counterexamples and witnesses -/

/-- The semantic pattern catalog with the three intrinsic confidences of
_detect_semantic_equivalences; the hit oracles are false, which is what the
catalog regexes compute on every line of the concrete instances below (none
contains a dot, an expressionType assignment or a null comparison). -/
def trivialSemPatterns : List SemPattern :=
  [⟨fun _ => false, fun _ => false, 0.8⟩,
   ⟨fun _ => false, fun _ => false, 0.7⟩,
   ⟨fun _ => false, fun _ => false, 0.6⟩]

/-- Matcher state produced by detect_structural_changes on sources with no
field declarations, no method headers and no rename candidates: all tables
empty except the fixed semantic catalog. -/
def plainMatcherState : MatcherState :=
  ⟨[], [], trivialSemPatterns, [], [], [], none⟩

/-- New side of the conflict-resolution instance: four lone braces and two
identical reasonable lines. -/
def c1NewLines : List (List Char) :=
  [[braceOpen], [braceOpen], [braceOpen], [braceOpen],
   "abcdefghijk".data, "abcdefghijk".data]

/-- Match dictionary of the conflict-resolution instance: old 0 and old 20
contest new 5, old 1 holds new 4 alone. -/
def c1Matches : List (Nat × Nat × ℚ) := [(0, 5, 0.9), (20, 5, 0.95), (1, 4, 0.5)]

/-- Old side of the pass-3 low-score instance: a return line and fourteen
plain lines. -/
def c6Old : List (List Char) :=
  ("return a").data :: (List.range 14).map (fun _ => "x".data)

/-- New side of the pass-3 low-score instance: fourteen plain lines and a
return line at index 14. -/
def c6New : List (List Char) :=
  ((List.range 14).map (fun _ => "y".data)) ++ [("return b").data]

/-- Candidate sets of the pass-3 low-score instance: old 0 has the single
candidate 14, all other candidate lists are empty. -/
def c6Cand : Nat → List Nat := fun i => if i = 0 then [14] else []

/-- Similarity oracle of the pass-3 low-score instance: 0.7 on the single
candidate pair, zero elsewhere. -/
def c6Sim : Nat → Nat → ℚ := fun i j => if i = 0 ∧ j = 14 then 0.7 else 0

/-- One line repeated in the identity counterexample: a control-flow line of
thirteen characters, long enough to pass the reasonableness filter and short
enough not to be a split candidate. -/
def c2Line : List Char := "return abcabc".data

/-- Twenty copies of the repeated line. -/
def c2L : List (List Char) := (List.range 20).map (fun _ => c2Line)

/-- Witness sides for the amended identity theorem. -/
def c2wL : List (List Char) := ["ab".data]

/-- Witness candidate sets for the amended identity theorem. -/
def c2wCand : Nat → List Nat := fun _ => [0]

/-- Witness similarity for the amended identity theorem: one on the diagonal
and zero off it. -/
def c2wSim : Nat → Nat → ℚ := fun i j => if i = j then 1 else 0

/-- The punctuation line of the punctuation witness. -/
def punctLine : List Char :=
  [';', ',', '(', ')', braceOpen, braceClose, '[', ']']

/-- The one-line text on which normalization stops being idempotent: a slash,
a triple-quoted x, and a slash. -/
def c7Line : List Char := '/' :: (tsq ++ ('x' :: tsq)) ++ ['/']

/-- Input of the length-preservation witness. -/
def c4wIn : List (List Char) := ["ab".data, []]

/-- The candidate ordering of claim C9: ascending Hamming distance with ties
broken by ascending index. -/
def candOrder (a b : Nat × Nat) : Prop :=
  a.2 < b.2 ∨ (a.2 = b.2 ∧ a.1 < b.1)

/-- The amended score property of claim C6 for one match entry against the
similarity matrix: the retained score is strictly positive, and it either
exceeds the forced-pass gate 0.2 or is the position-adjusted value
sim times (1 - dist / 15) of a raw similarity above the control-flow gate
0.6 (the pass 3 case, which is the only pass storing a score below its own
gate). -/
def scoreOk (M : Nat → Nat → ℚ) (e : Nat × Nat × ℚ) : Prop :=
  0 < e.2.2 ∧ ((0.2 : ℚ) < e.2.2 ∨
    ((0.6 : ℚ) < M e.1 e.2.1 ∧
      e.2.2 = M e.1 e.2.1 * (1 - (absDiffN e.1 e.2.1 : ℚ) / 15)))

/-! ## Theorems -/

set_option maxRecDepth 1000000

/-- Claim C3 (code bug): normalization is not total.  On the one-line text
holding a lone block-comment opener, the per-line pass keeps the opener, and
normalize_block_comments scans past the end of the line vector looking for a
closer, raising IndexError in the source (none in the embedding), while the
spec contract says normalization never fails. -/
theorem c3_normalization_crashes_on_unclosed_opener :
    normalizeText [slashStar] = none := by with_unfolding_all decide

/-- Claim C7 (code bug): normalization is not idempotent.  On the one-line
text slash, triple-quote, x, triple-quote, slash, the quoted-block removal
inside normalize_line glues the two slashes into a line-comment marker, so
the first normalization returns the line of two slashes and the second
normalization deletes it, contradicting the idempotence contract. -/
theorem c7_normalization_not_idempotent :
    (normalizeText [c7Line]).bind normalizeText ≠ normalizeText [c7Line] ∧
    normalizeText [c7Line] = some [dblSlash] ∧
    normalizeText [dblSlash] = some [[]] := by with_unfolding_all decide

/-- Claim C8 (counterexample): the per-line normalization does not remove
the punctuation set; a lone semicolon is returned unchanged, so a normalized
line can contain a character of the set. -/
theorem c8_punctuation_counterexample :
    normalizeLine true false [';'] = [';'] ∧ ';' ∈ normalizeLine true false [';'] := by
  with_unfolding_all decide

/-- Claim C5 (counterexample): content_similarity does not agree with the
formula of the claim.  On the strings 5 and x, the code normalizes both
sides to VAR (the NUM introduced for the integer literal is replaced by the
identifier pass) and returns 1, while the claimed normalization keeps NUM on
one side and returns 0. -/
theorem c5_content_similarity_counterexample :
    contentSimilarity ['5'] ['x'] ≠ specContentSimilarity ['5'] ['x'] ∧
    contentSimilarity ['5'] ['x'] = 1 ∧ specContentSimilarity ['5'] ['x'] = 0 := by
  with_unfolding_all decide

/-- Claim C1 (code bug): resolve_conflicts can map two old lines to the same
new line.  Old 0 loses new 5 to old 20, is salvaged, and the alternative
search hands it new 4 because only already-resolved entries are checked for
freeness, although new 4 is the pending target of the singleton group of old
1; the resolved mapping then carries new 4 twice, violating the injectivity
guarantee of the spec. -/
theorem c1_resolve_conflicts_duplicate_new_index :
    resolveConflicts [] c1Matches c1NewLines = [(20, 5, 0.95), (0, 4, 0.9), (1, 4, 0.5)] ∧
    (resolveConflicts [] c1Matches c1NewLines).countP (fun e => decide (e.2.1 = 4)) = 2 := by
  with_unfolding_all decide

/-- Claim C10: best_match_for_each_line never consults its threshold
parameter, so its output is identical under any two threshold values. -/
theorem c10_threshold_unused (st : MatcherState) (oldL newL : List (List Char))
    (cand : Nat → List Nat) (simCtx : Nat → Nat → ℚ) (t1 t2 : ℚ) :
    bestMatchForEachLine st oldL newL cand simCtx t1 =
      bestMatchForEachLine st oldL newL cand simCtx t2 := rfl

/-- Claim C6 (counterexample): a retained score may lie below 0.2 and below
the gate of its pass.  With one candidate pair of raw similarity 0.7 at
index distance 14, pass 3 accepts it and stores the position-adjusted score
0.7 times one fifteenth, which is below every pass gate. -/
theorem c6_low_score_counterexample :
    bestMatchForEachLine plainMatcherState c6Old c6New c6Cand c6Sim 0.45 =
      [(0, 14, 7/150)] ∧ (7 : ℚ)/150 < 1/5 := by
  with_unfolding_all decide

/-- The inner scan decomposes the line vector: the scanned prefix, the
closing line and the remainder concatenate back to the input. -/
theorem scanToClose_eq : ∀ (ls pre : List (List Char)) (cl : List Char) (rest : List (List Char)),
    scanToClose ls = some (pre, cl, rest) → ls = pre ++ cl :: rest := by
  intro ls
  induction ls with
  | nil => intro pre cl rest h; simp [scanToClose] at h
  | cons l ls ih =>
    intro pre cl rest h
    by_cases hc : hasCloseDelim l = true
    · simp [scanToClose, hc] at h
      obtain ⟨h1, h2, h3⟩ := h
      subst h1; subst h2; subst h3; rfl
    · simp [scanToClose, hc] at h
      cases hrec : scanToClose ls with
      | none => rw [hrec] at h; simp at h
      | some v =>
        rw [hrec] at h
        obtain ⟨p, c, r⟩ := v
        simp at h
        obtain ⟨h1, h2, h3⟩ := h
        subst h1; subst h2; subst h3
        simpa using ih p c r hrec

/-- A list of blanked lines is pointwise empty-preserving against any list. -/
theorem forall2_blank (pre : List (List Char)) :
    List.Forall₂ (fun (a b : List Char) => a = [] → b = [])
      pre (List.replicate pre.length []) := by
  induction pre with
  | nil => exact List.Forall₂.nil
  | cons p ps ih => exact List.Forall₂.cons (fun _ => rfl) ih

/-- The block-comment worker relates input and output lines pointwise:
an empty input line stays empty. -/
theorem nbcGo_forall2 : ∀ (fuel : Nat) (ls r : List (List Char)),
    nbcGo fuel ls = some r →
    List.Forall₂ (fun (a b : List Char) => a = [] → b = []) ls r := by
  intro fuel
  induction fuel with
  | zero =>
    intro ls r h
    cases ls with
    | nil => simp [nbcGo] at h; subst h; exact List.Forall₂.nil
    | cons l ls => simp [nbcGo] at h
  | succ fuel ih =>
    intro ls r h
    cases ls with
    | nil => simp [nbcGo] at h; subst h; exact List.Forall₂.nil
    | cons l ls =>
      by_cases ho : hasOpenDelim l = true
      · simp [nbcGo, ho] at h
        cases hsc : scanToClose ls with
        | none => rw [hsc] at h; simp at h
        | some v =>
          rw [hsc] at h
          obtain ⟨pre, cl, rest⟩ := v
          simp at h
          cases hn : nbcGo fuel rest with
          | none => rw [hn] at h; simp at h
          | some tail =>
            rw [hn] at h
            simp at h
            subst h
            have hdec := scanToClose_eq ls pre cl rest hsc
            subst hdec
            refine List.Forall₂.cons (fun hl => by rw [hl]; rfl) ?_
            refine List.rel_append (forall2_blank pre) ?_
            exact List.Forall₂.cons (fun hcl => by rw [hcl]; rfl) (ih rest tail hn)
      · simp [nbcGo, ho] at h
        cases hn : nbcGo fuel ls with
        | none => rw [hn] at h; simp at h
        | some tail =>
          rw [hn] at h
          simp at h
          subst h
          exact List.Forall₂.cons (fun hl => hl) (ih ls tail hn)

/-- Pointwise empty preservation transfers to index access with default. -/
theorem forall2_getD : ∀ {l1 l2 : List (List Char)},
    List.Forall₂ (fun (a b : List Char) => a = [] → b = []) l1 l2 →
    ∀ i, l1.getD i [] = [] → l2.getD i [] = [] := by
  intro l1 l2 h
  induction h with
  | nil => intro i _; simp
  | cons hr ht ih =>
    intro i hi
    cases i with
    | zero =>
      rw [List.getD_cons_zero] at hi
      rw [List.getD_cons_zero]
      exact hr hi
    | succ i =>
      rw [List.getD_cons_succ] at hi
      rw [List.getD_cons_succ]
      exact ih i hi

/-- Normalizing the empty line gives the empty line. -/
theorem normalizeLine_nil : normalizeLine true false [] = [] := rfl

/-- Empty lines survive the per-line normalization map pointwise. -/
theorem map_normalizeLine_getD (t : List (List Char)) :
    ∀ i, t.getD i [] = [] → (t.map (normalizeLine true false)).getD i [] = [] := by
  induction t with
  | nil => intro i _; simp
  | cons x ts ih =>
    intro i hi
    cases i with
    | zero =>
      rw [List.getD_cons_zero] at hi
      rw [List.map_cons, List.getD_cons_zero, hi, normalizeLine_nil]
    | succ i =>
      rw [List.getD_cons_succ] at hi
      rw [List.map_cons, List.getD_cons_succ]
      exact ih i hi

/-- Claim C4: normalization preserves the number of lines and keeps empty
lines empty.  Whenever the pipeline returns a result (the crash of claim C3
is the only failure mode), the result has exactly one normalized line per
raw line, and every empty raw line stays the empty string. -/
theorem c4_normalize_length_preservation (t r : List (List Char))
    (h : normalizeText t = some r) :
    r.length = t.length ∧ ∀ i, t.getD i [] = [] → r.getD i [] = [] := by
  have h2 := nbcGo_forall2 (t.map (normalizeLine true false)).length
    (t.map (normalizeLine true false)) r h
  constructor
  · have := h2.length_eq
    simpa using this.symm
  · intro i hi
    exact forall2_getD h2 i (map_normalizeLine_getD t i hi)

/-- Witness for claim C4 at a concrete two-line text with one empty line. -/
theorem c4_normalize_length_preservation_witness :
    normalizeText c4wIn = some [['a', 'b'], []] ∧
    (([['a', 'b'], ([] : List Char)] : List (List Char)).length = c4wIn.length ∧
      ∀ i, c4wIn.getD i [] = [] → ([['a', 'b'], ([] : List Char)] : List (List Char)).getD i [] = []) :=
  ⟨by with_unfolding_all decide,
   c4_normalize_length_preservation c4wIn [['a', 'b'], []] (by with_unfolding_all decide)⟩

/-- Dropping leading whitespace is the identity on whitespace-free strings. -/
theorem dropWhile_no_space (s : List Char) (h : ∀ c ∈ s, isPySpace c = false) :
    s.dropWhile isPySpace = s := by
  cases s with
  | nil => rfl
  | cons c cs => simp [List.dropWhile_cons, h c (List.mem_cons_self c cs)]

/-- Stripping is the identity on whitespace-free strings. -/
theorem pyStrip_no_space (s : List Char) (h : ∀ c ∈ s, isPySpace c = false) :
    pyStrip s = s := by
  unfold pyStrip
  rw [dropWhile_no_space s h,
    dropWhile_no_space s.reverse (fun c hc => h c (List.mem_reverse.mp hc)),
    List.reverse_reverse]

/-- Whitespace collapsing is the identity on whitespace-free strings. -/
theorem collapseWs_no_space : ∀ (s : List Char), (∀ c ∈ s, isPySpace c = false) →
    collapseWs s = s := by
  intro s
  induction s with
  | nil => intro _; rfl
  | cons c cs ih =>
    intro h
    have hc := h c (List.mem_cons_self c cs)
    have : collapseWsGo false cs = cs := ih (fun d hd => h d (List.mem_cons_of_mem c hd))
    simp [collapseWs, collapseWsGo, hc] at this ⊢
    exact this

/-- Truncation at an absent pattern is the identity. -/
theorem truncAtSub_no_occurrence (pat s : List Char) (h : containsSub pat s = false) :
    truncAtSub pat s = s := by
  unfold truncAtSub
  cases hsp : splitAtSub pat s with
  | none => rfl
  | some v => rw [containsSub, hsp] at h; simp at h

/-- An absent pattern stays absent in the tail and never starts the string. -/
theorem splitAtSub_none_cons (pat : List Char) (c : Char) (cs : List Char)
    (h : splitAtSub pat (c :: cs) = none) :
    listStartsWith pat (c :: cs) = false ∧ splitAtSub pat cs = none := by
  by_cases hs : listStartsWith pat (c :: cs) = true
  · rw [splitAtSub, if_pos hs] at h; simp at h
  · refine ⟨by simpa using hs, ?_⟩
    rw [splitAtSub, if_neg hs] at h
    cases hr : splitAtSub pat cs with
    | none => rfl
    | some v => rw [hr] at h; obtain ⟨p, r⟩ := v; simp at h

/-- Pair deletion at an absent opener is the identity. -/
theorem removeDelimPairsGo_no_open (opn cls : List Char) :
    ∀ (fuel : Nat) (s : List Char), splitAtSub opn s = none →
    removeDelimPairsGo opn cls fuel s = s := by
  intro fuel
  induction fuel with
  | zero => intro s _; rfl
  | succ fuel ih =>
    intro s h
    cases s with
    | nil => rfl
    | cons c cs =>
      obtain ⟨h1, h2⟩ := splitAtSub_none_cons opn c cs h
      rw [removeDelimPairsGo, if_neg (by simp [h1])]
      rw [ih cs h2]

/-- Pair deletion at an absent opener is the identity (wrapper form). -/
theorem removeDelimPairs_no_open (opn cls s : List Char) (h : containsSub opn s = false) :
    removeDelimPairs opn cls s = s := by
  unfold removeDelimPairs
  apply removeDelimPairsGo_no_open
  cases hsp : splitAtSub opn s with
  | none => rfl
  | some v => rw [containsSub, hsp] at h; simp at h

/-- Claim C8 (amended): the per-line normalization preserves rather than
strips the punctuation set, because the punctuation substitution of the
source is commented out: every line free of whitespace and of the comment
delimiters (double slash, hash, triple quote, slash-star) passes through
normalize_line unchanged, punctuation included. -/
theorem c8_punctuation_amended (s : List Char)
    (hws : ∀ c ∈ s, isPySpace c = false)
    (h1 : containsSub dblSlash s = false)
    (h2 : containsSub hashMark s = false)
    (h3 : containsSub tsq s = false)
    (h4 : containsSub slashStar s = false) :
    normalizeLine true false s = s := by
  unfold normalizeLine
  simp [pyStrip_no_space s hws, collapseWs_no_space s hws,
    truncAtSub_no_occurrence dblSlash s h1, truncAtSub_no_occurrence hashMark s h2,
    removeDelimPairs_no_open tsq tsq s h3, removeDelimPairs_no_open slashStar starSlash s h4]

/-- Witness for the amended claim C8 on the full punctuation line. -/
theorem c8_punctuation_amended_witness :
    normalizeLine true false punctLine = punctLine :=
  c8_punctuation_amended punctLine (by with_unfolding_all decide)
    (by with_unfolding_all decide) (by with_unfolding_all decide)
    (by with_unfolding_all decide) (by with_unfolding_all decide)

/-- Membership through stable insertion. -/
theorem insByDist_mem (x w : Nat × Nat) : ∀ (l : List (Nat × Nat)),
    w ∈ insByDist x l → w = x ∨ w ∈ l := by
  intro l
  induction l with
  | nil => intro h; simp [insByDist] at h; exact Or.inl h
  | cons y ys ih =>
    intro h
    rw [insByDist] at h
    by_cases hc : x.2 < y.2
    · rw [if_pos hc] at h
      rcases List.mem_cons.mp h with h | h
      · exact Or.inl h
      · exact Or.inr h
    · rw [if_neg hc] at h
      rcases List.mem_cons.mp h with h | h
      · exact Or.inr (by simp [h])
      · rcases ih h with h | h
        · exact Or.inl h
        · exact Or.inr (List.mem_cons_of_mem y h)

/-- Stable insertion by distance preserves the candidate ordering when the
inserted element carries a larger index than every present element. -/
theorem insByDist_pairwise (x : Nat × Nat) : ∀ (l : List (Nat × Nat)),
    List.Pairwise candOrder l → (∀ y ∈ l, y.1 < x.1) →
    List.Pairwise candOrder (insByDist x l) := by
  intro l
  induction l with
  | nil => intro _ _; simpa [insByDist] using List.pairwise_singleton candOrder x
  | cons y ys ih =>
    intro hp hidx
    rw [insByDist]
    rcases List.pairwise_cons.mp hp with ⟨hy, hys⟩
    by_cases hc : x.2 < y.2
    · rw [if_pos hc]
      refine List.pairwise_cons.mpr ⟨?_, hp⟩
      intro z hz
      rcases List.mem_cons.mp hz with hz | hz
      · exact Or.inl (by rw [hz]; exact hc)
      · have := hy z hz
        rcases this with h | h
        · exact Or.inl (lt_trans hc h)
        · exact Or.inl (lt_of_lt_of_le hc (le_of_eq h.1))
    · rw [if_neg hc]
      refine List.pairwise_cons.mpr ⟨?_, ih hys (fun z hz => hidx z (List.mem_cons_of_mem y hz))⟩
      intro w hw
      rcases insByDist_mem x w ys hw with hw | hw
      · rcases lt_or_eq_of_le (not_lt.mp hc) with h | h
        · exact Or.inl (by rw [hw]; exact h)
        · exact Or.inr (by rw [hw]; exact ⟨h, hidx y (List.mem_cons_self y ys)⟩)
      · exact hy w hw

/-- Folding stable insertions over index-increasing input yields a list
ordered by the candidate ordering. -/
theorem sortByDist_fold_pairwise : ∀ (l acc : List (Nat × Nat)),
    List.Pairwise (fun a b : Nat × Nat => a.1 < b.1) l →
    List.Pairwise candOrder acc →
    (∀ y ∈ acc, ∀ x ∈ l, y.1 < x.1) →
    List.Pairwise candOrder (l.foldl (fun a x => insByDist x a) acc) := by
  intro l
  induction l with
  | nil => intro acc _ hacc _; exact hacc
  | cons x xs ih =>
    intro acc hl hacc hcross
    rcases List.pairwise_cons.mp hl with ⟨hx, hxs⟩
    rw [List.foldl_cons]
    refine ih (insByDist x acc) hxs ?_ ?_
    · exact insByDist_pairwise x acc hacc
        (fun y hy => hcross y hy x (List.mem_cons_self x xs))
    · intro y hy z hz
      rcases insByDist_mem x y acc hy with hy | hy
      · rw [hy]; exact hx z hz
      · exact hcross y hy z (List.mem_cons_of_mem x hz)

/-- Claim C9: for every stored fingerprint vector, target fingerprint and k,
the candidate list of the SimHash index has at most k entries and is ordered
by ascending Hamming distance with ties broken by ascending index. -/
theorem c9_candidates_sorted (hashes : List Nat) (targetHash k : Nat) :
    (getTopKCandidates hashes targetHash k).length ≤ k ∧
    List.Pairwise candOrder (getTopKCandidates hashes targetHash k) := by
  constructor
  · unfold getTopKCandidates
    simpa using Nat.min_le_left k _
  · unfold getTopKCandidates
    refine List.Pairwise.sublist (List.take_sublist k _) ?_
    unfold sortByDist
    have henum : List.Pairwise (fun a b : Nat × Nat => a.1 < b.1) hashes.enum := by
      have h0 : List.Pairwise (· < ·) ((hashes.enum).map Prod.fst) := by
        rw [List.enum_map_fst]; exact List.pairwise_lt_range hashes.length
      exact List.pairwise_map.mp h0
    have hdist : List.Pairwise (fun a b : Nat × Nat => a.1 < b.1)
        (hashes.enum.map fun p => (p.1, hammingDistance targetHash p.2)) := by
      rw [List.pairwise_map]
      exact henum
    exact sortByDist_fold_pairwise _ [] hdist List.Pairwise.nil (by intro y hy; simp at hy)

/-- Claim C2 (counterexample): the pipeline on identical sides is not the
identity mapping.  With twenty copies of one line, every candidate list is
the first fifteen indices, pass 1 matches old 0 to 14 onto new 0 to 14,
pass 7 forces old 15 to 19 onto new 0, and conflict resolution salvages
them onto new 1 to 5, so old 15 maps to the singleton list holding 1. -/
theorem c2_identity_counterexample :
    mappingLookup (lhdiffPipeline plainMatcherState (fun _ => 0) (fun _ _ => 1) c2L c2L) 15 =
      some [1] ∧ ([1] : List Nat) ≠ [15] := by
  with_unfolding_all decide

/-- Consuming a fully word run shifts it into the accumulator of the token
substitution worker. -/
theorem subTokensGo_word_run (f : List Char → List Char) :
    ∀ (r acc rest : List Char), (∀ c ∈ r, isWordChar c = true) →
    subTokensGo f acc (r ++ rest) = subTokensGo f (r.reverse ++ acc) rest := by
  intro r
  induction r with
  | nil => intro acc rest _; simp
  | cons c cr ih =>
    intro acc rest h
    have hc := h c (List.mem_cons_self c cr)
    rw [List.cons_append, subTokensGo, if_pos hc]
    rw [ih (c :: acc) rest (fun d hd => h d (List.mem_cons_of_mem c hd))]
    simp

/-- The token substitution on a string opening with a maximal word run
rewrites that run and recurses on the remainder. -/
theorem subTokens_word_head (f : List Char → List Char) (r rest : List Char)
    (hne : r ≠ []) (hw : ∀ c ∈ r, isWordChar c = true)
    (hrest : rest = [] ∨ ∃ d ds, rest = d :: ds ∧ isWordChar d = false) :
    subTokens f (r ++ rest) = f r ++ subTokens f rest := by
  unfold subTokens
  rw [subTokensGo_word_run f r [] rest hw]
  rcases hrest with h | ⟨d, ds, hd, hdw⟩
  · subst h
    simp [subTokensGo, hne]
  · subst hd
    rw [subTokensGo, if_neg (by simp [hdw])]
    simp [subTokensGo, hne, hdw]

/-- The token substitution on a string opening with a non-word character
keeps the character. -/
theorem subTokens_sep_head (f : List Char → List Char) (c : Char) (rest : List Char)
    (hc : isWordChar c = false) :
    subTokens f (c :: rest) = c :: subTokens f rest := by
  unfold subTokens
  rw [subTokensGo, if_neg (by simp [hc])]
  simp

/-- Worker of the composition theorem, by strong induction on the length:
two successive token substitutions collapse into the substitution by the
composed replacement, provided the first replacement keeps word runs
nonempty and made of word characters. -/
theorem subTokens_comp_aux (g1 g2 g : List Char → List Char)
    (hg : ∀ r, r ≠ [] → (∀ c ∈ r, isWordChar c = true) →
      g1 r ≠ [] ∧ (∀ c ∈ g1 r, isWordChar c = true) ∧ g2 (g1 r) = g r) :
    ∀ (n : Nat) (s : List Char), s.length ≤ n →
    subTokens g2 (subTokens g1 s) = subTokens g s := by
  intro n
  induction n with
  | zero =>
    intro s h
    have : s = [] := List.eq_nil_of_length_eq_zero (Nat.le_zero.mp h)
    subst this; rfl
  | succ n ih =>
    intro s hlen
    cases s with
    | nil => rfl
    | cons c cs =>
      by_cases hc : isWordChar c = true
      · have hr : (c :: cs).takeWhile isWordChar ≠ [] := by
          simp [List.takeWhile_cons, hc]
        have hwr : ∀ d ∈ (c :: cs).takeWhile isWordChar, isWordChar d = true :=
          fun d hd => List.mem_takeWhile_imp hd
        have hrest : (c :: cs).dropWhile isWordChar = [] ∨
            ∃ d ds, (c :: cs).dropWhile isWordChar = d :: ds ∧ isWordChar d = false := by
          cases hdw : (c :: cs).dropWhile isWordChar with
          | nil => exact Or.inl rfl
          | cons d ds =>
            refine Or.inr ⟨d, ds, rfl, ?_⟩
            have h4 : ((c :: cs).dropWhile isWordChar).head? = some d := by rw [hdw]; rfl
            have h5 := List.head?_dropWhile_not isWordChar (c :: cs)
            rw [h4] at h5
            exact h5
        have hsplit := List.takeWhile_append_dropWhile isWordChar (c :: cs)
        have hlsum : ((c :: cs).takeWhile isWordChar).length +
            ((c :: cs).dropWhile isWordChar).length = cs.length + 1 := by
          have h := congrArg List.length hsplit
          rw [List.length_append] at h
          rw [h, List.length_cons]
        have htpos : 0 < ((c :: cs).takeWhile isWordChar).length :=
          List.length_pos.mpr hr
        have hl2 : cs.length + 1 ≤ n + 1 := by simpa using hlen
        have hdlen : ((c :: cs).dropWhile isWordChar).length ≤ n := by omega
        calc subTokens g2 (subTokens g1 (c :: cs))
            = subTokens g2 (subTokens g1
                ((c :: cs).takeWhile isWordChar ++ (c :: cs).dropWhile isWordChar)) := by
              rw [hsplit]
          _ = subTokens g2 (g1 ((c :: cs).takeWhile isWordChar) ++
                subTokens g1 ((c :: cs).dropWhile isWordChar)) := by
              rw [subTokens_word_head g1 _ _ hr hwr hrest]
          _ = g2 (g1 ((c :: cs).takeWhile isWordChar)) ++
                subTokens g2 (subTokens g1 ((c :: cs).dropWhile isWordChar)) := by
              refine subTokens_word_head g2 _ _ (hg _ hr hwr).1 (hg _ hr hwr).2.1 ?_
              rcases hrest with h | ⟨d, ds, hd, hdw⟩
              · rw [h]; exact Or.inl rfl
              · rw [hd, subTokens_sep_head g1 d ds hdw]
                exact Or.inr ⟨d, subTokens g1 ds, rfl, hdw⟩
          _ = g ((c :: cs).takeWhile isWordChar) ++
                subTokens g ((c :: cs).dropWhile isWordChar) := by
              rw [(hg _ hr hwr).2.2, ih _ hdlen]
          _ = subTokens g ((c :: cs).takeWhile isWordChar ++ (c :: cs).dropWhile isWordChar) :=
              (subTokens_word_head g _ _ hr hwr hrest).symm
          _ = subTokens g (c :: cs) := by rw [hsplit]
      · have hcf : isWordChar c = false := by simpa using hc
        rw [subTokens_sep_head g1 c cs hcf,
          subTokens_sep_head g2 c (subTokens g1 cs) hcf,
          subTokens_sep_head g c cs hcf]
        have : cs.length ≤ n := by simpa using Nat.le_of_succ_le_succ hlen
        rw [ih cs this]

/-- The replacement chain of normalize_code is pointwise the amended
replacement on word runs: all-digit runs go to NUM and then to VAR,
identifier-headed runs go to VAR, and digit-headed mixed runs survive
both substitutions. -/
theorem numVar_pointwise : ∀ r : List Char, r ≠ [] → (∀ c ∈ r, isWordChar c = true) →
    numSubst r ≠ [] ∧ (∀ c ∈ numSubst r, isWordChar c = true) ∧
      varSubst (numSubst r) = amendedSubst r := by
  intro r hne hw
  by_cases hd : r.all Char.isDigit = true
  · refine ⟨?_, ?_, ?_⟩
    · simp [numSubst, hd, numTok]
    · intro c hc
      rw [numSubst, if_pos hd] at hc
      fin_cases hc <;> decide
    · rw [numSubst, if_pos hd, amendedSubst, if_pos hd]
      decide
  · have hdf : r.all Char.isDigit = false := by simpa using hd
    refine ⟨by rw [numSubst, if_neg (by simp [hdf])]; exact hne,
      by rw [numSubst, if_neg (by simp [hdf])]; exact hw, ?_⟩
    rw [numSubst, if_neg (by simp [hdf]), varSubst, amendedSubst]
    simp [hdf]

/-- The two regex substitutions of normalize_code compute the amended
single-pass substitution. -/
theorem normalizeCode_eq_amended (s : List Char) :
    normalizeCode s = amendedNormalizeCode s := by
  unfold normalizeCode amendedNormalizeCode
  exact subTokens_comp_aux numSubst varSubst amendedSubst numVar_pointwise s.length s le_rfl

/-- Claim C5 (amended): content_similarity equals the claimed formula after
correcting the normalization: integer literals are replaced by NUM and then
every identifier token, the fresh NUM included, is replaced by VAR, so both
identifiers and integer literals end up as VAR; empty-string handling is as
the claim states. -/
theorem c5_content_similarity_amended (a b : List Char) :
    contentSimilarity a b = amendedContentSimilarity a b := by
  simp only [contentSimilarity, amendedContentSimilarity, normalizeCode_eq_amended]

/-- Fold invariant preservation, with membership of the processed element. -/
theorem foldl_inv_mem {α σ : Type} (P : σ → Prop) (f : σ → α → σ) :
    ∀ (l : List α) (s : σ), P s → (∀ s a, a ∈ l → P s → P (f s a)) → P (l.foldl f s) := by
  intro l
  induction l with
  | nil => intro s h _; exact h
  | cons a as ih =>
    intro s h hs
    exact ih (f s a) (hs s a (List.mem_cons_self a as) h)
      (fun s b hb hP => hs s b (List.mem_cons_of_mem a hb) hP)

/-- Dict assignment preserves a pointwise property when the new binding has it. -/
theorem dassign_forall (P : Nat × Nat × ℚ → Prop) (m : List (Nat × Nat × ℚ)) (k : Nat)
    (v : Nat × ℚ) (hm : ∀ e ∈ m, P e) (hv : P (k, v.1, v.2)) :
    ∀ e ∈ dassign m k v, P e := by
  intro e he
  unfold dassign at he
  by_cases hk : amem m k = true
  · rw [if_pos hk] at he
    rcases List.mem_map.mp he with ⟨x, hx, hxe⟩
    by_cases hx1 : x.1 = k
    · rw [if_pos hx1] at hxe; rw [← hxe]; exact hv
    · rw [if_neg hx1] at hxe; rw [← hxe]; exact hm x hx
  · rw [if_neg hk] at he
    rcases List.mem_append.mp he with h | h
    · exact hm e h
    · rw [List.mem_singleton.mp h]; exact hv

/-- Every proposal of part 1 of the enhanced pass scores above 0.4 and
targets an existing line of the new side. -/
theorem enhancedPart1_forall (st : MatcherState) (oldL newL : List (List Char))
    (cand : Nat → List Nat) :
    ∀ e ∈ enhancedPart1 st oldL newL,
      (0.4 : ℚ) < e.2.2 ∧ (e.2.1 < newL.length ∨ e.2.1 ∈ cand e.1) := by
  unfold enhancedPart1
  refine foldl_inv_mem
    (fun sm : List (Nat × Nat × ℚ) =>
      ∀ e ∈ sm, (0.4 : ℚ) < e.2.2 ∧ (e.2.1 < newL.length ∨ e.2.1 ∈ cand e.1))
    _ st.fieldRepl [] (by intro e he; simp at he) ?_
  intro sm fr _ hP
  dsimp only
  by_cases h1 : fr.2.1 < newL.length
  · rw [if_pos h1]
    by_cases h2 : (0.4 : ℚ) < max (combinedSimilarityNoCtx (oldL.getD fr.1 []) (newL.getD fr.2.1 []))
        ((0.4 : ℚ) + fr.2.2 * 0.5)
    · rw [if_pos h2]
      refine dassign_forall _ sm fr.1 _ hP ?_
      exact ⟨lt_min_iff.mpr ⟨h2, by norm_num⟩, Or.inl h1⟩
    · rw [if_neg h2]; exact hP
  · rw [if_neg h1]; exact hP

/-- The selection of part 2 of the enhanced pass only returns boosted scores
above 0.4 at candidate indices. -/
theorem enhancedPart2Inner_some (cand : Nat → List Nat) (M : Nat → Nat → ℚ) (conf : ℚ)
    (oi : Nat) (idxs : List Nat) :
    ∀ p, enhancedPart2Inner cand M conf oi idxs = some p →
      (0.4 : ℚ) < p.2 ∧ p.1 ∈ cand oi := by
  unfold enhancedPart2Inner
  refine foldl_inv_mem
    (fun acc : Option (Nat × ℚ) => ∀ p, acc = some p → (0.4 : ℚ) < p.2 ∧ p.1 ∈ cand oi)
    _ idxs none (by intro p h; simp at h) ?_
  intro acc ni _ hP p hp
  by_cases h1 : ni ∈ cand oi
  · rw [if_pos h1] at hp
    dsimp only at hp
    by_cases h2 : bestScoreOf acc < min 1 (M oi ni + conf * (0.3 : ℚ)) ∧
        (0.4 : ℚ) < min 1 (M oi ni + conf * (0.3 : ℚ))
    · rw [if_pos h2] at hp
      cases hp
      exact ⟨h2.2, h1⟩
    · rw [if_neg h2] at hp
      exact hP p hp
  · rw [if_neg h1] at hp
    exact hP p hp

/-- Part 2 of the enhanced pass preserves the proposal property. -/
theorem enhancedPart2_forall (st : MatcherState) (cand : Nat → List Nat) (M : Nat → Nat → ℚ)
    (nNew : Nat) (sm0 : List (Nat × Nat × ℚ))
    (h0 : ∀ e ∈ sm0, (0.4 : ℚ) < e.2.2 ∧ (e.2.1 < nNew ∨ e.2.1 ∈ cand e.1)) :
    ∀ e ∈ enhancedPart2 st cand M sm0,
      (0.4 : ℚ) < e.2.2 ∧ (e.2.1 < nNew ∨ e.2.1 ∈ cand e.1) := by
  unfold enhancedPart2
  refine foldl_inv_mem
    (fun sm : List (Nat × Nat × ℚ) =>
      ∀ e ∈ sm, (0.4 : ℚ) < e.2.2 ∧ (e.2.1 < nNew ∨ e.2.1 ∈ cand e.1))
    _ st.logicRewrites sm0 h0 ?_
  intro sm lr _ hP
  cases ho : lookupB st.mbOld lr.1 with
  | none => exact hP
  | some om =>
    cases hn : lookupB st.mbNew lr.1 with
    | none => exact hP
    | some nm =>
      refine foldl_inv_mem
        (fun sm : List (Nat × Nat × ℚ) =>
          ∀ e ∈ sm, (0.4 : ℚ) < e.2.2 ∧ (e.2.1 < nNew ∨ e.2.1 ∈ cand e.1))
        _ _ sm hP ?_
      intro sm oi _ hQ
      by_cases h1 : amem sm oi = true
      · rw [if_pos h1]; exact hQ
      · rw [if_neg h1]
        cases hsel : enhancedPart2Inner cand M lr.2 oi (enhancedPart2Window om nm oi) with
        | none => exact hQ
        | some p =>
          refine dassign_forall _ sm oi p hQ ?_
          obtain ⟨hs, hc⟩ := enhancedPart2Inner_some cand M lr.2 oi _ p hsel
          exact ⟨hs, Or.inr hc⟩

/-- Part 3 of the enhanced pass preserves the proposal property. -/
theorem enhancedPart3_forall (st : MatcherState) (oldL newL : List (List Char))
    (cand : Nat → List Nat) (M : Nat → Nat → ℚ) (sm0 : List (Nat × Nat × ℚ))
    (h0 : ∀ e ∈ sm0, (0.4 : ℚ) < e.2.2 ∧ (e.2.1 < newL.length ∨ e.2.1 ∈ cand e.1)) :
    ∀ e ∈ enhancedPart3 st oldL newL cand M sm0,
      (0.4 : ℚ) < e.2.2 ∧ (e.2.1 < newL.length ∨ e.2.1 ∈ cand e.1) := by
  unfold enhancedPart3
  refine foldl_inv_mem
    (fun sm : List (Nat × Nat × ℚ) =>
      ∀ e ∈ sm, (0.4 : ℚ) < e.2.2 ∧ (e.2.1 < newL.length ∨ e.2.1 ∈ cand e.1))
    _ _ sm0 h0 ?_
  intro smOuter oi _ hP
  by_cases h1 : amem smOuter oi = true
  · rw [if_pos h1]; exact hP
  · rw [if_neg h1]
    refine foldl_inv_mem
      (fun sm : List (Nat × Nat × ℚ) =>
        ∀ e ∈ sm, (0.4 : ℚ) < e.2.2 ∧ (e.2.1 < newL.length ∨ e.2.1 ∈ cand e.1))
      _ st.semPatterns smOuter hP ?_
    intro sm p _ hQ
    by_cases h2 : p.oldHit (oldL.getD oi []) = true
    · rw [if_pos h2]
      cases hf : (List.range newL.length).find? (fun ni =>
          !(sm.any (fun e => decide (e.2.1 = ni))) && p.newHit (newL.getD ni []) &&
          decide ((0.5 : ℚ) <
            min 1 ((if ni ∈ cand oi then M oi ni else (0.3 : ℚ)) + p.conf * 0.4))) with
      | none => exact hQ
      | some ni =>
        refine dassign_forall _ sm oi _ hQ ?_
        have hmem := List.mem_range.mp (List.mem_of_find?_eq_some hf)
        have hpred := List.find?_some hf
        rw [Bool.and_eq_true, Bool.and_eq_true] at hpred
        have h05 := of_decide_eq_true hpred.2
        exact ⟨lt_trans (by norm_num) h05, Or.inl hmem⟩
    · rw [if_neg h2]; exact hQ

/-- Every proposal of the enhanced structural pass scores above 0.4 and
targets an existing new line or a candidate of its old line. -/
theorem findEnhanced_forall (st : MatcherState) (oldL newL : List (List Char))
    (cand : Nat → List Nat) (M : Nat → Nat → ℚ) :
    ∀ e ∈ findEnhancedStructuralMatches st oldL newL cand M,
      (0.4 : ℚ) < e.2.2 ∧ (e.2.1 < newL.length ∨ e.2.1 ∈ cand e.1) := by
  unfold findEnhancedStructuralMatches
  exact enhancedPart3_forall st oldL newL cand M _
    (enhancedPart2_forall st cand M newL.length _
      (enhancedPart1_forall st oldL newL cand))

/-- Every proposal of the remaining-structural pass scores above 0.4 and
targets an existing line of the new side. -/
theorem findRemaining_forall (st : MatcherState) (oldL newL : List (List Char))
    (existing : List (Nat × Nat × ℚ)) (used : List Nat) :
    ∀ e ∈ findRemainingStructuralMatches st oldL newL existing used,
      (0.4 : ℚ) < e.2.2 ∧ e.2.1 < newL.length := by
  unfold findRemainingStructuralMatches
  refine foldl_inv_mem
    (fun rm : List (Nat × Nat × ℚ) => ∀ e ∈ rm, (0.4 : ℚ) < e.2.2 ∧ e.2.1 < newL.length)
    _ st.fieldRepl [] (by intro e he; simp at he) ?_
  intro rm fr _ hP
  by_cases h1 : amem existing fr.1 = true
  · rw [if_pos h1]; exact hP
  · rw [if_neg h1]
    cases h2 : used.contains fr.2.1 with
    | true =>
      simp only [Bool.not_true, if_neg (by simp : ¬(false = true))]
      exact hP
    | false =>
      simp only [Bool.not_false, if_pos rfl]
      by_cases h3 : fr.2.1 < newL.length
      · rw [if_pos h3]
        by_cases h4 : (0.4 : ℚ) < max (combinedSimilarityNoCtx (oldL.getD fr.1 []) (newL.getD fr.2.1 []))
            ((0.4 : ℚ) + fr.2.2 * 0.5)
        · rw [if_pos h4]
          refine dassign_forall _ rm fr.1 _ hP ?_
          exact ⟨lt_min_iff.mpr ⟨h4, by norm_num⟩, h3⟩
        · rw [if_neg h4]; exact hP
      · rw [if_neg h3]; exact hP

/-- Pass 1 only stores scores above the exact-match gate. -/
theorem pass1_scoreOk (nOld : Nat) (cand : Nat → List Nat) (M : Nat → Nat → ℚ) :
    ∀ e ∈ (pass1 nOld cand M).1, scoreOk M e := by
  unfold pass1
  refine foldl_inv_mem (fun st : List (Nat × Nat × ℚ) × List Nat => ∀ e ∈ st.1, scoreOk M e)
    _ (List.range nOld) ([], []) (by intro e he; simp at he) ?_
  intro s i _ hP
  cases hf : (cand i).find? (fun j => decide ((0.95 : ℚ) < M i j) && !s.2.contains j) with
  | none => exact hP
  | some j =>
    intro e he
    rcases List.mem_append.mp he with h | h
    · exact hP e h
    · rw [List.mem_singleton.mp h]
      have hpred := List.find?_some hf
      rw [Bool.and_eq_true] at hpred
      have h95 := of_decide_eq_true hpred.1
      exact ⟨lt_trans (by norm_num) h95, Or.inl (lt_trans (by norm_num) h95)⟩

/-- The merge loop of passes 2 and 5 preserves a pointwise property of the
match dictionary when every proposed entry has it. -/
theorem mergeGuarded_forall (P : Nat × Nat × ℚ → Prop) (entries : List (Nat × Nat × ℚ))
    (st : List (Nat × Nat × ℚ) × List Nat)
    (hst : ∀ e ∈ st.1, P e) (hent : ∀ e ∈ entries, P e) :
    ∀ e ∈ (mergeGuarded entries st).1, P e := by
  unfold mergeGuarded
  refine foldl_inv_mem (fun st : List (Nat × Nat × ℚ) × List Nat => ∀ e ∈ st.1, P e)
    _ entries st hst ?_
  intro s a ha hP
  by_cases h1 : (!amem s.1 a.1 && !s.2.contains a.2.1) = true
  · rw [if_pos h1]
    intro e he
    rcases List.mem_append.mp he with h | h
    · exact hP e h
    · rw [List.mem_singleton.mp h]; exact hent a ha
  · rw [if_neg h1]; exact hP

/-- The pass 3 selection returns only positive position-adjusted scores of
raw similarities above the control-flow gate. -/
theorem pass3Select_some (newL : List (List Char)) (cand : Nat → List Nat)
    (M : Nat → Nat → ℚ) (used : List Nat) (i : Nat) :
    ∀ p, pass3Select newL cand M used i = some p →
      0 < p.2 ∧ (0.6 : ℚ) < M i p.1 ∧ p.2 = M i p.1 * (1 - (absDiffN i p.1 : ℚ) / 15) := by
  unfold pass3Select
  refine foldl_inv_mem
    (fun acc : Option (Nat × ℚ) => ∀ p, acc = some p →
      0 < p.2 ∧ (0.6 : ℚ) < M i p.1 ∧ p.2 = M i p.1 * (1 - (absDiffN i p.1 : ℚ) / 15))
    _ (cand i) none (by intro p h; simp at h) ?_
  intro acc j _ hA p hp
  by_cases hu : used.contains j = true
  · rw [if_pos hu] at hp; exact hA p hp
  · rw [if_neg hu] at hp
    by_cases hg : ((isControlFlowLine (newL.getD j []) || containsSub returnTok (newL.getD j [])) &&
        decide ((0.6 : ℚ) < M i j)) = true
    · rw [if_pos hg] at hp
      by_cases hb : bestScoreOf acc < M i j * (1 - (absDiffN i j : ℚ) / 15)
      · rw [if_pos hb] at hp
        cases hp
        rw [Bool.and_eq_true] at hg
        have h06 := of_decide_eq_true hg.2
        have hnn : (0 : ℚ) ≤ bestScoreOf acc := by
          cases hacc : acc with
          | none => simp [bestScoreOf]
          | some q0 => exact le_of_lt (hA q0 hacc).1
        exact ⟨lt_of_le_of_lt hnn hb, h06, rfl⟩
      · rw [if_neg hb] at hp; exact hA p hp
    · rw [if_neg hg] at hp; exact hA p hp

/-- Pass 3 preserves the amended score property and adds only control-flow
entries carrying it. -/
theorem pass3_scoreOk (oldL newL : List (List Char)) (cand : Nat → List Nat)
    (M : Nat → Nat → ℚ) (st0 : List (Nat × Nat × ℚ) × List Nat)
    (h0 : ∀ e ∈ st0.1, scoreOk M e) :
    ∀ e ∈ (pass3 oldL newL cand M st0).1, scoreOk M e := by
  unfold pass3
  refine foldl_inv_mem (fun st : List (Nat × Nat × ℚ) × List Nat => ∀ e ∈ st.1, scoreOk M e)
    _ (List.range oldL.length) st0 h0 ?_
  intro s i _ hP
  by_cases h1 : amem s.1 i = true
  · rw [if_pos h1]; exact hP
  · rw [if_neg h1]
    by_cases h2 : (isControlFlowLine (oldL.getD i []) || containsSub returnTok (oldL.getD i [])) = true
    · rw [if_pos h2]
      cases hb : pass3Select newL cand M s.2 i with
      | none => exact hP
      | some p =>
        intro e he
        rcases List.mem_append.mp he with h | h
        · exact hP e h
        · rw [List.mem_singleton.mp h]
          obtain ⟨hq1, hq2, hq3⟩ := pass3Select_some newL cand M s.2 i p hb
          exact ⟨hq1, Or.inr ⟨hq2, hq3⟩⟩
    · rw [if_neg h2]; exact hP

/-- The pass 4 selection only returns adjusted scores above 0.5. -/
theorem pass4Select_some (nNew : Nat) (cand : Nat → List Nat) (M : Nat → Nat → ℚ)
    (used : List Nat) (i : Nat) :
    ∀ p, pass4Select nNew cand M used i = some p → (0.5 : ℚ) < p.2 := by
  unfold pass4Select
  refine foldl_inv_mem
    (fun acc : Option (Nat × ℚ) => ∀ p, acc = some p → (0.5 : ℚ) < p.2)
    _ _ none (by intro p h; simp at h) ?_
  intro acc j _ hA p hp
  by_cases hu : used.contains j = true
  · rw [if_pos hu] at hp; exact hA p hp
  · rw [if_neg hu] at hp
    by_cases hc : j ∈ cand i
    · rw [if_pos hc] at hp
      by_cases hg : bestScoreOf acc < M i j * (1 - (absDiffN i j : ℚ) / 25) ∧
          (0.5 : ℚ) < M i j * (1 - (absDiffN i j : ℚ) / 25)
      · rw [if_pos hg] at hp; cases hp; exact hg.2
      · rw [if_neg hg] at hp; exact hA p hp
    · rw [if_neg hc] at hp; exact hA p hp

/-- Pass 4 preserves the amended score property. -/
theorem pass4_scoreOk (nOld nNew : Nat) (cand : Nat → List Nat) (M : Nat → Nat → ℚ)
    (st0 : List (Nat × Nat × ℚ) × List Nat) (h0 : ∀ e ∈ st0.1, scoreOk M e) :
    ∀ e ∈ (pass4 nOld nNew cand M st0).1, scoreOk M e := by
  unfold pass4
  refine foldl_inv_mem (fun st : List (Nat × Nat × ℚ) × List Nat => ∀ e ∈ st.1, scoreOk M e)
    _ (List.range nOld) st0 h0 ?_
  intro s i _ hP
  by_cases h1 : amem s.1 i = true
  · rw [if_pos h1]; exact hP
  · rw [if_neg h1]
    cases hb : pass4Select nNew cand M s.2 i with
    | none => exact hP
    | some p =>
      intro e he
      rcases List.mem_append.mp he with h | h
      · exact hP e h
      · rw [List.mem_singleton.mp h]
        have h05 := pass4Select_some nNew cand M s.2 i p hb
        exact ⟨lt_trans (by norm_num) h05, Or.inl (lt_trans (by norm_num) h05)⟩

/-- The pass 6 selection only returns scores above 0.3. -/
theorem pass6Select_some (cand : Nat → List Nat) (M : Nat → Nat → ℚ)
    (used : List Nat) (i : Nat) :
    ∀ p, pass6Select cand M used i = some p → (0.3 : ℚ) < p.2 := by
  unfold pass6Select
  refine foldl_inv_mem
    (fun acc : Option (Nat × ℚ) => ∀ p, acc = some p → (0.3 : ℚ) < p.2)
    _ (cand i) none (by intro p h; simp at h) ?_
  intro acc j _ hA p hp
  by_cases hu : used.contains j = true
  · rw [if_pos hu] at hp; exact hA p hp
  · rw [if_neg hu] at hp
    by_cases hg : bestScoreOf acc < M i j ∧ (0.3 : ℚ) < M i j
    · rw [if_pos hg] at hp; cases hp; exact hg.2
    · rw [if_neg hg] at hp; exact hA p hp

/-- Pass 6 preserves the amended score property. -/
theorem pass6_scoreOk (nOld : Nat) (cand : Nat → List Nat) (M : Nat → Nat → ℚ)
    (st0 : List (Nat × Nat × ℚ) × List Nat) (h0 : ∀ e ∈ st0.1, scoreOk M e) :
    ∀ e ∈ (pass6 nOld cand M st0).1, scoreOk M e := by
  unfold pass6
  refine foldl_inv_mem (fun st : List (Nat × Nat × ℚ) × List Nat => ∀ e ∈ st.1, scoreOk M e)
    _ (List.range nOld) st0 h0 ?_
  intro s i _ hP
  by_cases h1 : amem s.1 i = true
  · rw [if_pos h1]; exact hP
  · rw [if_neg h1]
    cases hb : pass6Select cand M s.2 i with
    | none => exact hP
    | some p =>
      intro e he
      rcases List.mem_append.mp he with h | h
      · exact hP e h
      · rw [List.mem_singleton.mp h]
        have h03 := pass6Select_some cand M s.2 i p hb
        exact ⟨lt_trans (by norm_num) h03, Or.inl (lt_trans (by norm_num) h03)⟩

/-- Pass 7 preserves the amended score property: forced entries are gated
above 0.2. -/
theorem pass7_scoreOk (nOld : Nat) (cand : Nat → List Nat) (M : Nat → Nat → ℚ)
    (st0 : List (Nat × Nat × ℚ) × List Nat) (h0 : ∀ e ∈ st0.1, scoreOk M e) :
    ∀ e ∈ (pass7 nOld cand M st0).1, scoreOk M e := by
  unfold pass7
  refine foldl_inv_mem (fun st : List (Nat × Nat × ℚ) × List Nat => ∀ e ∈ st.1, scoreOk M e)
    _ (List.range nOld) st0 h0 ?_
  intro s i _ hP
  by_cases h1 : amem s.1 i = true
  · rw [if_pos h1]; exact hP
  · rw [if_neg h1]
    cases hb : pass7Select cand M i with
    | none => exact hP
    | some p =>
      dsimp only
      by_cases hg : (0.2 : ℚ) < p.2
      · rw [if_pos hg]
        intro e he
        rcases List.mem_append.mp he with h | h
        · exact hP e h
        · rw [List.mem_singleton.mp h]
          exact ⟨lt_trans (by norm_num) hg, Or.inl hg⟩
      · rw [if_neg hg]; exact hP

/-- Claim C6 (amended): every retained score of best_match_for_each_line is
strictly positive, and it either exceeds the forced-pass gate 0.2 or is the
position-adjusted score sim times (1 - dist / 15) of a control-flow match
whose raw similarity exceeds 0.6 (the pass 3 case, which may fall below
every gate); the other passes store only scores above their own gates. -/
theorem c6_scores_amended (st : MatcherState) (oldL newL : List (List Char))
    (cand : Nat → List Nat) (simCtx : Nat → Nat → ℚ) (threshold : ℚ) :
    ∀ e ∈ bestMatchForEachLine st oldL newL cand simCtx threshold,
      scoreOk (matrixOf oldL.length newL.length cand simCtx) e := by
  unfold bestMatchForEachLine
  apply pass7_scoreOk
  apply pass6_scoreOk
  apply mergeGuarded_forall
  · apply pass4_scoreOk
    apply pass3_scoreOk
    apply mergeGuarded_forall
    · exact pass1_scoreOk oldL.length cand (matrixOf oldL.length newL.length cand simCtx)
    · intro e he
      have h := (findEnhanced_forall st oldL newL cand
        (matrixOf oldL.length newL.length cand simCtx)) e he
      exact ⟨lt_trans (by norm_num) h.1, Or.inl (lt_trans (by norm_num) h.1)⟩
  · intro e he
    have h := (findRemaining_forall st oldL newL _ _) e he
    exact ⟨lt_trans (by norm_num) h.1, Or.inl (lt_trans (by norm_num) h.1)⟩

/-- Witness for the amended claim C6 at the concrete pass-3 instance. -/
theorem c6_scores_amended_witness :
    ((0, 14, (7 : ℚ)/150) ∈ bestMatchForEachLine plainMatcherState c6Old c6New c6Cand c6Sim 0.45) ∧
    scoreOk (matrixOf c6Old.length c6New.length c6Cand c6Sim) (0, 14, (7 : ℚ)/150) :=
  ⟨by with_unfolding_all decide,
   c6_scores_amended plainMatcherState c6Old c6New c6Cand c6Sim 0.45 (0, 14, (7 : ℚ)/150)
     (by with_unfolding_all decide)⟩

/-- A fold whose step fixes the initial state leaves it unchanged. -/
theorem foldl_fix {α σ : Type} (f : σ → α → σ) (s : σ) :
    ∀ (l : List α), (∀ a ∈ l, f s a = s) → l.foldl f s = s := by
  intro l
  induction l with
  | nil => intro _; rfl
  | cons a as ih =>
    intro h
    rw [List.foldl_cons, h a (List.mem_cons_self a as)]
    exact ih (fun b hb => h b (List.mem_cons_of_mem a hb))

/-- When exactly one element of a list satisfies the predicate, find? returns
it. -/
theorem findq_eq_some_of_unique {α : Type} (p : α → Bool) (a : α) :
    ∀ (l : List α), a ∈ l → p a = true → (∀ b ∈ l, p b = true → b = a) → l.find? p = some a := by
  intro l
  induction l with
  | nil => intro h; exact absurd h (List.not_mem_nil a)
  | cons b bs ih =>
    intro hmem hpa huniq
    by_cases hpb : p b = true
    · rw [List.find?_cons_of_pos bs hpb, huniq b (List.mem_cons_self b bs) hpb]
    · rw [List.find?_cons_of_neg bs hpb]
      have hab : a ≠ b := fun he => hpb (he ▸ hpa)
      have hmem2 : a ∈ bs := by
        rcases List.mem_cons.mp hmem with h | h
        · exact absurd h hab
        · exact h
      exact ih hmem2 hpa (fun c hc hpc => huniq c (List.mem_cons_of_mem b hc) hpc)

/-- Containment in an index range. -/
theorem range_contains_of_lt (n j : Nat) (h : j < n) : (List.range n).contains j = true := by
  simpa using h

/-- The fuelled Levenshtein distance of a string to itself is zero. -/
theorem levGo_self : ∀ (fuel : Nat) (s : List Char), s.length ≤ fuel → levGo fuel s s = 0 := by
  intro fuel
  induction fuel with
  | zero =>
    intro s hs
    cases s with
    | nil => rfl
    | cons c cs => simp at hs
  | succ f ih =>
    intro s hs
    cases s with
    | nil => rfl
    | cons c cs =>
      have hcs : cs.length ≤ f := by
        simp only [List.length_cons] at hs
        omega
      simp only [levGo, if_pos rfl]
      exact ih cs hcs

/-- The Levenshtein distance of a string to itself is zero. -/
theorem levenshtein_self (s : List Char) : levenshtein s s = 0 :=
  levGo_self (s.length + s.length) s (Nat.le_add_right s.length s.length)

/-- Content similarity of a line with itself is one. -/
theorem contentSimilarity_self (s : List Char) : contentSimilarity s s = 1 := by
  unfold contentSimilarity
  by_cases hs : s = []
  · rw [if_pos ⟨hs, hs⟩]
  · rw [if_neg (fun h => hs h.1), if_neg (fun h => h.elim hs hs)]
    dsimp only
    rw [levenshtein_self]
    simp

/-- Content similarity never exceeds one. -/
theorem contentSimilarity_le_one (a b : List Char) : contentSimilarity a b ≤ 1 := by
  unfold contentSimilarity
  by_cases h1 : a = [] ∧ b = []
  · rw [if_pos h1]
  · rw [if_neg h1]
    by_cases h2 : a = [] ∨ b = []
    · rw [if_pos h2]
      norm_num
    · rw [if_neg h2]
      dsimp only
      exact sub_le_self 1 (div_nonneg (Nat.cast_nonneg _)
        (le_trans (Nat.cast_nonneg _) (le_max_left _ _)))

/-- Combined similarity with empty contexts of a line with itself is 0.6. -/
theorem combinedNoCtx_self (s : List Char) : combinedSimilarityNoCtx s s = (0.6 : ℚ) := by
  unfold combinedSimilarityNoCtx
  rw [contentSimilarity_self]
  norm_num

/-- Combined similarity with empty contexts never exceeds 0.6. -/
theorem combinedNoCtx_le (a b : List Char) : combinedSimilarityNoCtx a b ≤ (0.6 : ℚ) := by
  unfold combinedSimilarityNoCtx
  have h := contentSimilarity_le_one a b
  linarith

/-- One unfolding step of pass 1. -/
theorem pass1_succ (m : Nat) (cand : Nat → List Nat) (M : Nat → Nat → ℚ) :
    pass1 (m + 1) cand M =
      (match (cand m).find?
          (fun j => decide ((0.95 : ℚ) < M m j) && !(pass1 m cand M).2.contains j) with
       | some j => ((pass1 m cand M).1 ++ [(m, j, M m j)], (pass1 m cand M).2 ++ [j])
       | none => pass1 m cand M) := by
  unfold pass1
  rw [show List.range (m + 1) = List.range m ++ [m] from List.range_succ m, List.foldl_append]
  rfl

/-- When every line is its own best candidate, pass 1 claims the diagonal. -/
theorem pass1_id (n : Nat) (cand : Nat → List Nat) (simCtx : Nat → Nat → ℚ)
    (hc : ∀ i, i < n → i ∈ cand i)
    (hoff : ∀ i j, i ≠ j → simCtx i j ≤ (0.95 : ℚ))
    (hdiag : ∀ i, i < n → (0.95 : ℚ) < simCtx i i) :
    ∀ m, m ≤ n → pass1 m cand (matrixOf n n cand simCtx) =
      (identityMatches m (matrixOf n n cand simCtx), List.range m) := by
  intro m
  induction m with
  | zero => intro _; rfl
  | succ k ih =>
    intro hk1
    have hkn : k < n := Nat.lt_of_lt_of_le (Nat.lt_succ_self k) hk1
    rw [pass1_succ, ih (Nat.le_of_lt hkn)]
    dsimp only
    have h195 : (0.95 : ℚ) < matrixOf n n cand simCtx k k := by
      unfold matrixOf
      rw [if_pos ⟨hkn, hkn, hc k hkn⟩]
      exact hdiag k hkn
    have h2 : (List.range k).contains k = false := by
      cases hck : (List.range k).contains k with
      | false => rfl
      | true =>
        have hmem : k ∈ List.range k := by simpa using hck
        exact absurd (List.mem_range.mp hmem) (lt_irrefl k)
    have hfind : (cand k).find?
        (fun j => decide ((0.95 : ℚ) < matrixOf n n cand simCtx k j) &&
          !(List.range k).contains j) = some k := by
      apply findq_eq_some_of_unique
      · exact hc k hkn
      · rw [h2, decide_eq_true h195]
        rfl
      · intro b hb hpb
        rw [Bool.and_eq_true] at hpb
        have h95 := of_decide_eq_true hpb.1
        by_contra hne
        have hle : matrixOf n n cand simCtx k b ≤ (0.95 : ℚ) := by
          unfold matrixOf
          by_cases hcond : k < n ∧ b < n ∧ b ∈ cand k
          · rw [if_pos hcond]
            exact hoff k b (fun he => hne he.symm)
          · rw [if_neg hcond]
            norm_num
        exact absurd h95 (not_lt.mpr hle)
    rw [hfind]
    unfold identityMatches
    rw [show List.range (k + 1) = List.range k ++ [k] from List.range_succ k, List.map_append]
    rfl

/-- Every old index below n is a key of the diagonal dictionary. -/
theorem amem_identityMatches (n : Nat) (M : Nat → Nat → ℚ) (i : Nat) (h : i < n) :
    amem (identityMatches n M) i = true := by
  unfold amem identityMatches
  rw [List.any_eq_true]
  exact ⟨(i, i, M i i), List.mem_map.mpr ⟨i, List.mem_range.mpr h, rfl⟩, by simp⟩

/-- The merge loop is the identity when every proposed new index is already
consumed. -/
theorem mergeGuarded_noop (entries : List (Nat × Nat × ℚ)) (s : List (Nat × Nat × ℚ) × List Nat)
    (h : ∀ a ∈ entries, s.2.contains a.2.1 = true) : mergeGuarded entries s = s := by
  unfold mergeGuarded
  apply foldl_fix
  intro a ha
  dsimp only
  rw [h a ha]
  simp

/-- Pass 3 is the identity when every old index is already matched. -/
theorem pass3_fix (oldL newL : List (List Char)) (cand : Nat → List Nat) (M : Nat → Nat → ℚ)
    (s : List (Nat × Nat × ℚ) × List Nat)
    (h : ∀ i ∈ List.range oldL.length, amem s.1 i = true) :
    pass3 oldL newL cand M s = s := by
  unfold pass3
  apply foldl_fix
  intro i hi
  dsimp only
  rw [if_pos (h i hi)]

/-- Pass 4 is the identity when every old index is already matched. -/
theorem pass4_fix (nOld nNew : Nat) (cand : Nat → List Nat) (M : Nat → Nat → ℚ)
    (s : List (Nat × Nat × ℚ) × List Nat)
    (h : ∀ i ∈ List.range nOld, amem s.1 i = true) :
    pass4 nOld nNew cand M s = s := by
  unfold pass4
  apply foldl_fix
  intro i hi
  dsimp only
  rw [if_pos (h i hi)]

/-- Pass 6 is the identity when every old index is already matched. -/
theorem pass6_fix (nOld : Nat) (cand : Nat → List Nat) (M : Nat → Nat → ℚ)
    (s : List (Nat × Nat × ℚ) × List Nat)
    (h : ∀ i ∈ List.range nOld, amem s.1 i = true) :
    pass6 nOld cand M s = s := by
  unfold pass6
  apply foldl_fix
  intro i hi
  dsimp only
  rw [if_pos (h i hi)]

/-- Pass 7 is the identity when every old index is already matched. -/
theorem pass7_fix (nOld : Nat) (cand : Nat → List Nat) (M : Nat → Nat → ℚ)
    (s : List (Nat × Nat × ℚ) × List Nat)
    (h : ∀ i ∈ List.range nOld, amem s.1 i = true) :
    pass7 nOld cand M s = s := by
  unfold pass7
  apply foldl_fix
  intro i hi
  dsimp only
  rw [if_pos (h i hi)]

/-- On identical sides with faithful context similarity and self-containing
candidate sets, the match dictionary is the diagonal. -/
theorem bestMatch_id (st : MatcherState) (L : List (List Char)) (cand : Nat → List Nat)
    (simCtx : Nat → Nat → ℚ) (threshold : ℚ)
    (hc : ∀ i, i < L.length → i ∈ cand i)
    (hcb : ∀ i j, j ∈ cand i → j < L.length)
    (hdiag : ∀ i, i < L.length → (0.95 : ℚ) < simCtx i i)
    (hoff : ∀ i j, i ≠ j → simCtx i j ≤ (0.95 : ℚ)) :
    bestMatchForEachLine st L L cand simCtx threshold =
      identityMatches L.length (matrixOf L.length L.length cand simCtx) := by
  unfold bestMatchForEachLine
  dsimp only
  rw [pass1_id L.length cand simCtx hc hoff hdiag L.length (le_refl L.length)]
  generalize matrixOf L.length L.length cand simCtx = M
  have hA : ∀ i ∈ List.range L.length,
      amem (identityMatches L.length M, List.range L.length).1 i = true :=
    fun i hi => amem_identityMatches L.length M i (List.mem_range.mp hi)
  rw [mergeGuarded_noop (findEnhancedStructuralMatches st L L cand M)
    (identityMatches L.length M, List.range L.length)
    (fun a ha => by
      rcases ((findEnhanced_forall st L L cand M) a ha).2 with hlt | hmem
      · exact range_contains_of_lt L.length a.2.1 hlt
      · exact range_contains_of_lt L.length a.2.1 (hcb a.1 a.2.1 hmem))]
  rw [pass3_fix L L cand M (identityMatches L.length M, List.range L.length) hA]
  rw [pass4_fix L.length L.length cand M (identityMatches L.length M, List.range L.length) hA]
  rw [mergeGuarded_noop
    (findRemainingStructuralMatches st L L (identityMatches L.length M, List.range L.length).1
      (identityMatches L.length M, List.range L.length).2)
    (identityMatches L.length M, List.range L.length)
    (fun a ha => range_contains_of_lt L.length a.2.1 ((findRemaining_forall st L L _ _ a ha).2))]
  rw [pass6_fix L.length cand M (identityMatches L.length M, List.range L.length) hA]
  rw [pass7_fix L.length cand M (identityMatches L.length M, List.range L.length) hA]

/-- Appending a claimant under a fresh key appends a fresh singleton group. -/
theorem upsert_fresh (acc : List (Nat × List (Nat × ℚ))) (k : Nat) (v : Nat × ℚ)
    (h : ∀ g ∈ acc, g.1 ≠ k) : upsertAppend acc k v = acc ++ [(k, [v])] := by
  unfold upsertAppend
  have hfalse : acc.any (fun g => decide (g.1 = k)) = false := by
    rw [List.any_eq_false]
    intro g hg
    simpa using h g hg
  rw [if_neg (by rw [hfalse]; simp)]

/-- Grouping a match list with pairwise distinct new indices yields one
singleton group per entry, in order. -/
theorem buildNewToOld_aux :
    ∀ (m : List (Nat × Nat × ℚ)) (acc : List (Nat × List (Nat × ℚ))),
      (∀ g ∈ acc, ∀ e ∈ m, g.1 ≠ e.2.1) → m.Pairwise (fun a b => a.2.1 ≠ b.2.1) →
      m.foldl (fun acc e => upsertAppend acc e.2.1 (e.1, e.2.2)) acc =
        acc ++ m.map (fun e => (e.2.1, [(e.1, e.2.2)])) := by
  intro m
  induction m with
  | nil => intro acc _ _; simp
  | cons e es ih =>
    intro acc hacc hpw
    rw [List.foldl_cons, upsert_fresh acc e.2.1 (e.1, e.2.2)
      (fun g hg => hacc g hg e (List.mem_cons_self e es))]
    rw [ih (acc ++ [(e.2.1, [(e.1, e.2.2)])]) ?_ (List.pairwise_cons.mp hpw).2]
    · simp
    · intro g hg f hf
      rcases List.mem_append.mp hg with h | h
      · exact hacc g h f (List.mem_cons_of_mem e hf)
      · rw [List.mem_singleton.mp h]
        exact (List.pairwise_cons.mp hpw).1 f hf

/-- The grouping map of resolve_conflicts on a distinct-new-index list. -/
theorem buildNewToOld_distinct (m : List (Nat × Nat × ℚ))
    (h : m.Pairwise (fun a b => a.2.1 ≠ b.2.1)) :
    buildNewToOld m = m.map (fun e => (e.2.1, [(e.1, e.2.2)])) := by
  unfold buildNewToOld
  rw [buildNewToOld_aux m [] (fun g hg => absurd hg (List.not_mem_nil g)) h]
  simp

/-- The resolution fold over singleton groups replays the original entries. -/
theorem resolve_fold_aux (fieldKeys : List Nat) (newLines : List (List Char)) :
    ∀ (m : List (Nat × Nat × ℚ)) (acc : List (Nat × Nat × ℚ)),
      (m.map (fun e => (e.2.1, [(e.1, e.2.2)]))).foldl
        (fun resolved g =>
          match g.2 with
          | [single] => resolved ++ [(single.1, g.1, single.2)]
          | items =>
            match sortDescByScore items with
            | [] => resolved
            | best :: losers =>
              losers.foldl
                (fun resolved l =>
                  let isStructural := fieldKeys.contains l.1
                  let isHighConf := decide ((0.8 : ℚ) < l.2)
                  let hasDist := decide (5 < absDiffN l.1 best.1)
                  let isReasonable := isSemanticallyReasonableMatch newLines g.1
                  if (isStructural || isHighConf) && hasDist && isReasonable then
                    match findValidAlternative g.1 newLines resolved with
                    | some nb => if nb ≠ g.1 then resolved ++ [(l.1, nb, l.2)] else resolved
                    | none => resolved
                  else resolved)
                (resolved ++ [(best.1, g.1, best.2)])) acc = acc ++ m := by
  intro m
  induction m with
  | nil => intro acc; simp
  | cons e es ih =>
    intro acc
    rw [List.map_cons, List.foldl_cons, ih]
    show (acc ++ [e]) ++ es = acc ++ e :: es
    simp

/-- resolve_conflicts is the identity on a match list whose new indices are
pairwise distinct: every group is a singleton and is replayed verbatim. -/
theorem resolveConflicts_distinct (fieldKeys : List Nat) (m : List (Nat × Nat × ℚ))
    (newLines : List (List Char)) (h : m.Pairwise (fun a b => a.2.1 ≠ b.2.1)) :
    resolveConflicts fieldKeys m newLines = m := by
  unfold resolveConflicts
  rw [buildNewToOld_distinct m h, resolve_fold_aux fieldKeys newLines m []]
  simp

/-- The diagonal dictionary has pairwise distinct new indices. -/
theorem identityMatches_pairwise (n : Nat) (M : Nat → Nat → ℚ) :
    (identityMatches n M).Pairwise (fun a b => a.2.1 ≠ b.2.1) := by
  unfold identityMatches
  rw [List.pairwise_map]
  exact List.Pairwise.imp (fun h => Nat.ne_of_lt h) (List.pairwise_lt_range n)

/-- detect_reorders adds nothing when every old index is already matched. -/
theorem detectReorders_matched (st : MatcherState) (oldL newL : List (List Char))
    (matchesA : List (Nat × Nat × ℚ)) (thr : ℚ)
    (h : ∀ i ∈ List.range oldL.length, amem matchesA i = true) :
    detectReorders st oldL newL matchesA thr = matchesA := by
  unfold detectReorders
  dsimp only
  refine Eq.trans (congrArg (fun r : List (Nat × Nat × ℚ) × List Nat => matchesA ++ r.1)
    (foldl_fix _ ([], matchesA.map (fun e => e.2.1)) (List.range oldL.length) ?_)) (by simp)
  intro i hi
  dsimp only
  rw [if_pos (h i hi)]

/-- The split-extension loop never grows a group whose seed line equals the
old line: the base score is already the self-similarity 0.6 and no combined
score can beat it by the required margin. -/
theorem extendSplitGroup_self (s : List Char) (newL : List (List Char)) (i : Nat) (ti : ℚ)
    (hself : pyStrip (newL.getD i []) = s) :
    extendSplitGroup s newL i ti = [i] := by
  unfold extendSplitGroup
  dsimp only
  rw [hself, combinedNoCtx_self]
  refine (foldl_inv_mem
    (fun stt : List Nat × List Char × ℚ × Bool => stt.1 = [i] ∧ stt.2.2.1 = (0.6 : ℚ))
    _ _ _ ⟨rfl, rfl⟩ ?_).1
  intro stt ni _ hP
  dsimp only
  split
  · exact hP
  · split
    · exact hP
    · split
      · rename_i htest
        exact absurd htest (not_lt.mpr (by
          rw [hP.2]
          exact le_trans (combinedNoCtx_le _ _)
            (le_add_of_nonneg_right (le_trans (by norm_num) (le_max_right ti (0.05 : ℚ))))))
      · exact ⟨hP.1, hP.2⟩

/-- The split fold over diagonal matches keeps every group a singleton. -/
theorem detectLineSplits_diag_aux (L : List (List Char)) (M : Nat → Nat → ℚ) (ti : ℚ) :
    ∀ (l : List Nat) (acc : List (Nat × List Nat)),
      ((l.map (fun i => (i, i, M i i))).foldl
        (fun upd e =>
          let oldLine := pyStrip (L.getD e.1 [])
          let group :=
            if isLikelySplitCandidate oldLine L e.2.1 then
              let ext := extendSplitGroup oldLine L e.2.1 ti
              if 1 < ext.length ∧ validateSplit oldLine ext L = true then ext else [e.2.1]
            else [e.2.1]
          upd ++ [(e.1, group)]) acc)
      = acc ++ l.map (fun i => (i, [i])) := by
  intro l
  induction l with
  | nil => intro acc; simp
  | cons i is ih =>
    intro acc
    rw [List.map_cons, List.foldl_cons, ih, List.map_cons]
    dsimp only
    rw [extendSplitGroup_self (pyStrip (L.getD i [])) L i ti rfl]
    rw [ite_self, ite_self]
    simp

/-- detect_line_splits on a diagonal match list yields singleton groups. -/
theorem detectLineSplits_diag (L : List (List Char)) (M : Nat → Nat → ℚ) (n : Nat) (ti : ℚ) :
    detectLineSplits L L (identityMatches n M) ti = (List.range n).map (fun i => (i, [i])) := by
  unfold detectLineSplits identityMatches
  rw [detectLineSplits_diag_aux L M ti (List.range n) []]
  simp

/-- Claim C2 (amended): when every line index is one of its own candidates,
every candidate index is in range, and the context similarity of every line
with itself exceeds 0.95 while with any other line it is at most 0.95, the
pipeline on identical sides yields the identity mapping taking every index i
of L to the singleton group holding i.  Without the candidate conditions the
identity property fails, as the recorded counterexample with twenty identical
lines and the default candidate budget shows. -/
theorem c2_identity_amended (st : MatcherState) (L : List (List Char))
    (cand : Nat → List Nat) (simCtx : Nat → Nat → ℚ)
    (hc : ∀ i, i < L.length → i ∈ cand i)
    (hcb : ∀ i j, j ∈ cand i → j < L.length)
    (hdiag : ∀ i, i < L.length → (0.95 : ℚ) < simCtx i i)
    (hoff : ∀ i j, i ≠ j → simCtx i j ≤ (0.95 : ℚ)) :
    lhdiffPipelineFromCand st L L cand simCtx =
      (List.range L.length).map (fun i => (i, [i])) := by
  unfold lhdiffPipelineFromCand
  dsimp only
  rw [bestMatch_id st L cand simCtx (0.45 : ℚ) hc hcb hdiag hoff]
  rw [resolveConflicts_distinct (st.fieldRepl.map (fun e => e.1))
    (identityMatches L.length (matrixOf L.length L.length cand simCtx)) L
    (identityMatches_pairwise L.length (matrixOf L.length L.length cand simCtx))]
  rw [detectReorders_matched st L L
    (identityMatches L.length (matrixOf L.length L.length cand simCtx)) (0.4 : ℚ)
    (fun i hi => amem_identityMatches L.length (matrixOf L.length L.length cand simCtx) i
      (List.mem_range.mp hi))]
  exact detectLineSplits_diag L (matrixOf L.length L.length cand simCtx) L.length (0.01 : ℚ)

/-- Witness for the amended claim C2 on a concrete one-line instance. -/
theorem c2_identity_amended_witness :
    lhdiffPipelineFromCand plainMatcherState c2wL c2wL c2wCand c2wSim = [(0, [0])] :=
  (c2_identity_amended plainMatcherState c2wL c2wCand c2wSim
    (fun i hi => by
      have h1 : c2wL.length = 1 := rfl
      have h0 : i = 0 := by omega
      rw [h0]
      simp [c2wCand])
    (fun i j hj => by
      have h1 : c2wL.length = 1 := rfl
      simp [c2wCand] at hj
      omega)
    (fun i _ => by
      simp [c2wSim]
      norm_num)
    (fun i j hne => by
      simp [c2wSim, hne]
      norm_num)).trans rfl

end LHDiff
